import Mathlib

/-!
Verification of the wasteland storage backend.

This file is a shallow embedding of the chunking / indirection engine of
`src/backends/Grenache.js` (the first, richer version of the file, the one
the specification adopts) and of the reference in-memory backend
(`src/unnamed/part_000`, i.e. `backends/Memory.js`), together with proofs
and refutations of the specification's testable properties: round-trip,
capacity boundary, sequence monotonicity, immutable idempotence, write-path
selection, salting policy, error propagation and addressing.

Modelling conventions:
* JavaScript strings are Lean `String`s; `Buffer.from(s)` is modelled as the
  list of the string's character codes (faithful for the ASCII data the
  backend manipulates).
* Callback-style results are values of `WLResult`: `ok` (callback with a
  value), `err` (callback with an error), `hang` (the callback is never
  invoked) and `fuelOut` (an artifact of the fuel used to embed the
  source's general recursion; all theorems supply sufficient fuel).
* `Math.random()` is modelled by an explicit supply `rand : Nat → String`
  consumed via a counter threaded through the state; `crypto` digests and
  `JSON.parse` are abstract parameters of the environment, constrained only
  by properties the real primitives have.
* The DHT transport is external to the repository; it is modelled as an
  ideal address-keyed store satisfying the consumed interface of spec §4.5:
  content-derived immutable addresses, `(publicKey, salt)`-derived mutable
  addresses with sequence enforcement, lookup-based reads.
-/

set_option maxHeartbeats 2000000
set_option maxRecDepth 10000

namespace Wasteland

/-- A stored record: the unit kept at one transport address
(`{v, seq?, salt?, k?, sig?, id?, original?}` in the source). -/
structure WLRecord where
  v : String
  seq : Option Nat := none
  salt : Option String := none
  k : Option String := none
  sig : Option String := none
  id : Option String := none
  original : Option String := none
deriving DecidableEq, Repr

/-- JavaScript truthiness of an optional string (`undefined` and `''` are
falsy, every other string is truthy). -/
def truthyS : Option String → Bool
  | none => false
  | some s => !(s = "")

/-- Assigning a computed digest `d` to an optional field guarded by a JS
truthiness test (`if (x) res.salt = x`). -/
def saltify (d : String) : Option String :=
  if d = "" then none else some d

/-- One character of JSON string escaping (`JSON.stringify` escapes the
quote and the backslash; control characters do not occur in the data the
backend serializes). -/
def escChar (c : Char) : List Char :=
  if c = '"' ∨ c = '\\' then ['\\', c] else [c]

/-- JSON string escaping over a character list. -/
def escChars (l : List Char) : List Char :=
  l.flatMap escChar

/-- `JSON.stringify` of a string value: quoted, escaped. -/
def jsonQuote (s : String) : String :=
  ⟨'"' :: escChars s.data ++ ['"']⟩

/-- The characters of the serialized pointer-buffer envelope up to the
opening bracket of the address array:
`{"wasteland_type":"pointers","p":[`. -/
def headerChars : List Char :=
  ("\x7b\"wasteland_type\":\"pointers\",\"p\":[").data

/-- The serialized address array contents: quoted escaped addresses joined
by commas. -/
def itemsChars : List String → List Char
  | [] => []
  | [p] => '"' :: escChars p.data ++ ['"']
  | p :: ps => ('"' :: escChars p.data ++ ['"']) ++ ',' :: itemsChars ps

/-- `GrenacheBackend.wrapPointers`:
`JSON.stringify({ wasteland_type: 'pointers', p: pointers })`. -/
def wrapPointers (pointers : List String) : String :=
  ⟨headerChars ++ itemsChars pointers ++ [']', '\x7d']⟩

/-- Fueled list chunking; `chunkList` below instantiates the fuel with the
list length, which always suffices. -/
def chunkFuel (k : Nat) : Nat → List α → List (List α)
  | 0, _ => []
  | _ + 1, [] => []
  | f + 1, a :: l => (a :: l.take (k - 1)) :: chunkFuel k f (l.drop (k - 1))

/-- Split a list into consecutive chunks of `k` elements (the last chunk may
be shorter). -/
def chunkList (l : List α) (k : Nat) : List (List α) :=
  chunkFuel k l.length l

/-- Modelled from the spec: `prepareData` of the missing
`src/lib/data-helper.js` (§4.1 Slicer). Deterministic byte-aligned split of
the payload into fragments of length `bufferSizelimit` (the last possibly
shorter); the empty payload is a single empty fragment. -/
def prepareData (data : String) (bufferSizelimit : Nat) : List String :=
  if data.data = [] then [""]
  else (chunkList data.data bufferSizelimit).map fun l => ⟨l⟩

/-- Modelled from the spec: `getMaxPointersPerBuffer` of the missing
`src/lib/data-helper.js` (§4.2). Fan-out
`K = floor((B − O) / (A + separator_overhead))` where `O` is the length of
the empty pointer-buffer envelope and each serialized address costs its
width plus two quotes and a comma. -/
def getMaxPointersPerBuffer (bufferSizelimit addressSize : Nat) : Nat :=
  (bufferSizelimit - (wrapPointers []).length) / (addressSize + 3)

/-- Modelled from the spec: `getSliceLimit` of the missing
`src/lib/data-helper.js` (§4.2). A tree of depth `maxIndirections` holds up
to `K ^ maxIndirections` slices. -/
def getSliceLimit (_bufferSizelimit maxPointers maxIndirections : Nat) : Nat :=
  maxPointers ^ maxIndirections

/-- Modelled from the spec: `prepareMultiLevelData` of the missing
`src/lib/data-helper.js` (§4.3 step 3). Group the slices into consecutive
boxes of `maxPointersPerBuffer` elements. -/
def prepareMultiLevelData (slices : List String) (maxPointers : Nat) :
    List (List String) :=
  chunkList slices maxPointers

/-- Concatenation of a list of strings (used to state that reassembly
recovers the sliced payload). -/
def sjoin (l : List String) : String :=
  l.foldr (· ++ ·) ""

/-! ### A canonical model of `JSON.parse` restricted to pointer buffers

`maybeRetrieveChunked` runs `JSON.parse` on a record's `v` and checks the
`wasteland_type === 'pointers'` discriminator.  The theorems below take the
parse function as an abstract environment parameter, constrained only by
the property that canonical serializations produced by `wrapPointers`
parse back to their address list.  `cjparse` is one concrete such function
(a recognizer of the canonical serialization), used to instantiate
witnesses and counterexamples. -/

/-- Peel an expected prefix off a character list. -/
def peel : List Char → List Char → Option (List Char)
  | [], l => some l
  | _ :: _, [] => none
  | p :: ps, c :: cs => if p = c then peel ps cs else none

/-- Parse a JSON string body (after the opening quote) up to its closing
quote, undoing escapes; returns the string's characters and the rest. -/
def parseStrChars : Nat → List Char → Option (List Char × List Char)
  | 0, _ => none
  | _ + 1, [] => none
  | f + 1, c :: rest =>
    if c = '"' then some ([], rest)
    else if c = '\\' then
      match rest with
      | [] => none
      | d :: rest2 =>
        match parseStrChars f rest2 with
        | some (s, r) => some (d :: s, r)
        | none => none
    else
      match parseStrChars f rest with
      | some (s, r) => some (c :: s, r)
      | none => none

/-- Parse the non-empty items of the pointer array followed by the closing
`]` and brace. -/
def parseItems : Nat → List Char → Option (List String)
  | 0, _ => none
  | _ + 1, [] => none
  | f + 1, c :: rest =>
    if c = '"' then
      match parseStrChars (rest.length + 1) rest with
      | none => none
      | some (s, r) =>
        match r with
        | [] => none
        | c2 :: r2 =>
          if c2 = ',' then
            match parseItems f r2 with
            | some ss => some (String.mk s :: ss)
            | none => none
          else if c2 = ']' ∧ r2 = ['\x7d'] then some [String.mk s]
          else none
    else none

/-- Concrete canonical pointer-buffer recognizer: accepts exactly the
serializations produced by `wrapPointers` and returns the address list. -/
def cjparse (s : String) : Option (List String) :=
  match peel headerChars s.data with
  | none => none
  | some rest =>
    if rest = [']', '\x7d'] then some []
    else parseItems rest.length rest

/-! ### Ideal transport addresses

The transport is external (spec §4.5); the model gives it injective
content-derived immutable addresses and `(publicKey, salt)`-derived mutable
addresses, realized as self-describing strings with a length-prefixed
(unary) encoding so that injectivity is provable. -/

/-- Unary length prefix used by the ideal address encodings. -/
def unaryChars (n : Nat) : List Char :=
  List.replicate n 'x'

/-- Encoding of the optional salt component of an ideal address. -/
def saltChars : Option String → List Char
  | none => []
  | some s => ':' :: s.data

/-- Ideal immutable address: a pure, injective function of the stored
content alone.  Spec §4.3/§4.5: for immutable writes the salt is ignored by
the transport — the address is content-determined, a pure function of the
record's content `v`. -/
def immAddrOf (v : String) : String :=
  ⟨'m' :: unaryChars v.data.length ++ ':' :: v.data⟩

/-- Ideal mutable address: a pure, injective function of
`(publicKey, opts.salt)` as in spec §4.5. -/
def mutAddr (pk : String) (osalt : Option String) : String :=
  ⟨'k' :: unaryChars pk.data.length ++ ':' :: pk.data ++ saltChars osalt⟩

/-! ### Environment, configuration and state -/

/-- Abstract environment: the external primitives the backend consumes.
`sha` models the hex digest `crypto.createHash('sha1')...digest('hex')`,
`rand` the successive draws of `Math.random()` (already stringified), and
`jparse` the composition of `JSON.parse` with the
`wasteland_type === 'pointers'` discriminator check and `p` extraction. -/
structure Env where
  sha : String → String
  rand : Nat → String
  jparse : String → Option (List String)

/-- `GrenacheBackend` configuration (constructor defaults of the source).
`keys` is the optional keypair, represented by its public key. -/
structure Conf where
  maxIndirections : Nat := 2
  bufferSizelimit : Nat := 1000
  addressSize : Nat := 40
  concurrentRequests : Nat := 5
  keys : Option String := none

/-- The transport store: an association list from addresses to records,
newest binding first. -/
abbrev Store := List (String × WLRecord)

/-- Address lookup in the ideal transport store. -/
def lookupStore : Store → String → Option WLRecord
  | [], _ => none
  | (a, r) :: rest, key => if a = key then some r else lookupStore rest key

/-- State threaded through a `put` call: the transport store, the
`Math.random()` counter and the `opts.salt` cell (the source mutates the
caller's options object, so the cell is shared by every record of one
`put`). -/
structure PSt where
  store : Store
  rnd : Nat := 0
  saltOpt : Option String := none
deriving Repr, DecidableEq

/-- Outcome of a callback-style operation: the callback got a value, the
callback got an error, the callback was never invoked, or the embedding's
fuel ran out. -/
inductive WLResult (α : Type) where
  | ok (a : α)
  | err (e : String)
  | hang
  | fuelOut
deriving DecidableEq, Repr

/-- Project the `v` field out of a record-valued result. -/
def vOf : WLResult WLRecord → WLResult String
  | .ok r => .ok r.v
  | .err e => .err e
  | .hang => .hang
  | .fuelOut => .fuelOut

/-! ### Ideal transport operations (spec §4.5, consumed interface) -/

/-- `transport.put` (immutable write): store the record at its
content-derived address.  Spec §4.3/§4.5: `salt` is ignored by the
transport for immutable writes (the options table of spec §6 calls it
meaningless there), so what the transport keeps is the content-addressed
record determined by `v` alone — repeated writes of equal content are
idempotent. -/
def tPutImm (payload : WLRecord) (store : Store) : String × Store :=
  let a := immAddrOf payload.v
  (a, (a, { v := payload.v }) :: store)

/-- `transport.putMutable`: store at the `(publicKey, opts.salt)`-derived
address, enforcing that a write at an occupied address carries the
successor of the stored sequence number (spec §3 invariant; the grape
transport reports violations as `302 sequence number less than current`,
src/test/integration.grenache-backend.js). -/
def tPutMut (pk : String) (payload : WLRecord) (oseq : Option Nat)
    (osalt : Option String) (store : Store) : WLResult (String × Store) :=
  let a := mutAddr pk osalt
  let stored : WLRecord := { payload with k := some pk }
  match lookupStore store a with
  | none => .ok (a, (a, stored) :: store)
  | some old =>
    match old.seq, oseq with
    | some rs, some s =>
      if s = rs + 1 then .ok (a, (a, stored) :: store)
      else .err "302 sequence number less than current"
    | _, _ => .err "302 sequence number less than current"

namespace GrenacheBackend

/-- `GrenacheBackend.getSha`:
`sha1(data + Math.random()).digest('hex')`, consuming one draw of the
randomness supply. -/
def getSha (env : Env) (st : PSt) (data : String) : String × PSt :=
  (env.sha (data ++ env.rand st.rnd), { st with rnd := st.rnd + 1 })

/-- `GrenacheBackend.getPayload`: build the record to publish.  Note the
source's `if (!opts.seq) return res`: a `seq` of `0` is falsy, so the
record is returned without `seq` and `salt` although `send` routes it to
the mutable path. -/
def getPayload (saltOpt : Option String) (data : String)
    (oseq : Option Nat) : WLRecord :=
  match oseq with
  | none => { v := data }
  | some 0 => { v := data }
  | some s =>
    let res : WLRecord := { v := data }
    let res := if truthyS saltOpt then { res with salt := saltOpt } else res
    { res with seq := some s }

/-- `GrenacheBackend.sendImmutable`: attach a truthy `opts.salt` to the
payload and call `transport.put`. -/
def sendImmutable (st : PSt) (payload : WLRecord) : WLResult (String × PSt) :=
  let payload :=
    if truthyS st.saltOpt then { payload with salt := st.saltOpt } else payload
  let (a, store) := tPutImm payload st.store
  .ok (a, { st with store := store })

/-- `GrenacheBackend.send`: build the payload, then pick the immutable path
when `opts.seq !== 0 && !opts.seq` (i.e. `seq` undefined) and the mutable
path otherwise, failing with `no keys set` when no keypair is
configured. -/
def send (_env : Env) (conf : Conf) (st : PSt) (data : String)
    (oseq : Option Nat) : WLResult (String × PSt) :=
  let payload := getPayload st.saltOpt data oseq
  match oseq with
  | none => sendImmutable st payload
  | some s =>
    match conf.keys with
    | none => .err "no keys set"
    | some pk =>
      match tPutMut pk payload (some s) st.saltOpt st.store with
      | .ok (a, store) => .ok (a, { st with store := store })
      | .err e => .err e
      | .hang => .hang
      | .fuelOut => .fuelOut

/-- `GrenacheBackend.getStoreTasks` + `taskParallel`
(`async.parallelLimit`): store each slice, first overwriting the shared
`opts.salt` cell with a digest of the slice.  The parallel tasks are
modelled sequentially: completion order does not affect the collected
addresses, which are returned in input order. -/
def storeParallel (env : Env) (conf : Conf) (oseq : Option Nat) :
    PSt → List String → WLResult (List String × PSt)
  | st, [] => .ok ([], st)
  | st, chunk :: rest =>
    let (d, st₁) := getSha env st chunk
    let st₂ := { st₁ with saltOpt := some d }
    match send env conf st₂ chunk oseq with
    | .ok (a, st₃) =>
      (match storeParallel env conf oseq st₃ rest with
       | .ok (as, st₄) => .ok (a :: as, st₄)
       | .err e => .err e
       | .hang => .hang
       | .fuelOut => .fuelOut)
    | .err e => .err e
    | .hang => .hang
    | .fuelOut => .fuelOut

/-- `GrenacheBackend.wrapAndStorePointers`: serialize the pointer list,
overwrite `opts.salt` with a digest of `JSON.stringify(wrapped)` (the
serialized buffer stringified once more) and send the wrapped buffer. -/
def wrapAndStorePointers (env : Env) (conf : Conf) (st : PSt)
    (pointers : List String) (oseq : Option Nat) : WLResult (String × PSt) :=
  let wrapped := wrapPointers pointers
  let (d, st₁) := getSha env st (jsonQuote wrapped)
  let st₂ := { st₁ with saltOpt := some d }
  send env conf st₂ wrapped oseq

/-- The `async.series` of `GrenacheBackend.storeUntilPointersFit`: the
boxes are stored strictly in sequence, each box's slices in (bounded)
parallel. -/
def storeBoxes (env : Env) (conf : Conf) (oseq : Option Nat) :
    PSt → List (List String) → WLResult (List (List String) × PSt)
  | st, [] => .ok ([], st)
  | st, box :: rest =>
    match storeParallel env conf oseq st box with
    | .ok (ptrs, st₁) =>
      (match storeBoxes env conf oseq st₁ rest with
       | .ok (pss, st₂) => .ok (ptrs :: pss, st₂)
       | .err e => .err e
       | .hang => .hang
       | .fuelOut => .fuelOut)
    | .err e => .err e
    | .hang => .hang
    | .fuelOut => .fuelOut

/-- `GrenacheBackend.put`, fueled (the source recurses through
`storeChunked → storeUntilPointersFit → put`; the fuel bounds that
recursion depth and every theorem supplies enough of it).

The three branches mirror `put`/`storeChunked`/`storeUntilPointersFit`:
single slice (defaulting a falsy `opts.salt` to a digest of the slice),
fewer slices than the fan-out (parallel store + `wrapAndStorePointers`),
and the multi-level path (capacity check, sequential boxes, recursive
`put` of the wrapped flattened pointers).  In the multi-level path the
source's series callback reads `if (err) return err`, so a failed sub-store
never reaches the caller's callback: this is modelled by `hang`. -/
def put (env : Env) (conf : Conf) :
    Nat → PSt → String → Option Nat → WLResult (String × PSt)
  | 0, _, _, _ => .fuelOut
  | f + 1, st, data, oseq =>
    let slices := prepareData data conf.bufferSizelimit
    if slices.length = 1 then
      let st₁ :=
        if truthyS st.saltOpt then st
        else
          let (d, st') := getSha env st (slices.headD "")
          { st' with saltOpt := some d }
      send env conf st₁ (slices.headD "") oseq
    else
      let maxPointers :=
        getMaxPointersPerBuffer conf.bufferSizelimit conf.addressSize
      if slices.length < maxPointers then
        match storeParallel env conf oseq st slices with
        | .ok (pointers, st₁) =>
          wrapAndStorePointers env conf st₁ pointers oseq
        | .err e => .err e
        | .hang => .hang
        | .fuelOut => .fuelOut
      else if slices.length >
          getSliceLimit conf.bufferSizelimit maxPointers
            conf.maxIndirections then
        .err "data too large: adjust maxIndirections"
      else
        let chunks := prepareMultiLevelData slices maxPointers
        match storeBoxes env conf oseq st chunks with
        | .ok (res, st₁) =>
          put env conf f st₁ (wrapPointers res.flatten) oseq
        | .err _ => .hang
        | .hang => .hang
        | .fuelOut => .fuelOut

/-- `GrenacheBackend.get` with `{recursive: true}` (a raw transport fetch;
the grape transport reports a missing address as an error). -/
def rawGet (store : Store) (key : String) : WLResult WLRecord :=
  if key = "" then .err "no key provided"
  else
    match lookupStore store key with
    | some r => .ok r
    | none => .err "not found"

/-- `GrenacheBackend.getRetrieveTasks` + `taskParallel`: fetch every child
address raw, collecting the records in pointer order. -/
def fetchPointers (store : Store) : List String → WLResult (List WLRecord)
  | [] => .ok []
  | p :: ps =>
    match rawGet store p with
    | .ok r =>
      (match fetchPointers store ps with
       | .ok rs => .ok (r :: rs)
       | .err e => .err e
       | .hang => .hang
       | .fuelOut => .fuelOut)
    | .err e => .err e
    | .hang => .hang
    | .fuelOut => .fuelOut

/-- The reduce of `GrenacheBackend.handleChunked`:
`res.reduce((acc, el) => acc + el.v, '')`. -/
def concatV (recs : List WLRecord) : String :=
  recs.foldl (fun acc r => acc ++ r.v) ""

/-- `GrenacheBackend.maybeRetrieveChunked` (with `handleChunked` inlined),
fueled: parse `v`; on a pointer buffer, save `v` into `original`, fetch all
children, replace `v` by their concatenation and recurse. -/
def maybeRetrieveChunked (env : Env) (store : Store) :
    Nat → WLRecord → WLResult WLRecord
  | 0, _ => .fuelOut
  | f + 1, r =>
    match env.jparse r.v with
    | none => .ok r
    | some pointers =>
      let r₁ := { r with original := some r.v }
      match fetchPointers store pointers with
      | .ok res => maybeRetrieveChunked env store f { r₁ with v := concatV res }
      | .err e => .err e
      | .hang => .hang
      | .fuelOut => .fuelOut

/-- `GrenacheBackend.get`: transport fetch, then reassembly unless the
`recursive` flag suppresses it. -/
def get (env : Env) (store : Store) (f : Nat) (key : String)
    (recursive : Bool) : WLResult WLRecord :=
  if key = "" then .err "no key provided"
  else
    match lookupStore store key with
    | none => .err "not found"
    | some r =>
      if recursive then .ok r else maybeRetrieveChunked env store f r

end GrenacheBackend

/-! ### The reference in-memory backend (`backends/Memory.js`) -/

/-- Lower-case hex digit of a value below 16. -/
def hexDigitChar (n : Nat) : Char :=
  if n < 10 then Char.ofNat (48 + n) else Char.ofNat (97 + (n - 10))

/-- Two-character lower-case hex encoding of one byte. -/
def byteToHex (b : Nat) : List Char :=
  [hexDigitChar (b / 16 % 16), hexDigitChar (b % 16)]

/-- `Buffer.prototype.toString('hex')` over a byte list. -/
def bytesToHex (bs : List Nat) : String :=
  ⟨bs.flatMap byteToHex⟩

/-- `Buffer.from(string)`: the string's bytes, modelled as character codes
(identical to UTF-8 for the ASCII strings the backend handles). -/
def strBytes (s : String) : List Nat :=
  s.data.map Char.toNat

namespace MemoryBackend

/-- External primitives consumed by the memory backend: the digest, the
`Math.random()` supply and `ed.sign(·, publicKey, secretKey).toString('hex')`
(the keypair is folded into the abstract signing function). -/
structure MemEnv where
  sha : String → String
  rand : Nat → String
  sign : String → String

/-- Instance state: the process-wide `address → record` map and the
randomness counter. -/
structure MemSt where
  store : Store
  rnd : Nat := 0
deriving Repr, DecidableEq

/-- Per-call options of the memory backend. -/
structure MemOpts where
  seq : Option Nat := none
  salt : Option String := none

/-- `MemoryBackend.getSha`: `sha1(data + Math.random()).digest('hex')`. -/
def getSha (env : MemEnv) (st : MemSt) (data : String) : String × MemSt :=
  (env.sha (data ++ env.rand st.rnd), { st with rnd := st.rnd + 1 })

/-- One bencode string token: `<len>:<contents>`. -/
def bencS (s : String) : String :=
  toString s.data.length ++ ":" ++ s

/-- The canonical byte preparation signed by the memory backend: bencode of
`{salt: opts.salt, seq, v}` (keys in sorted order, absent fields omitted)
with the outer dictionary delimiters stripped (`.slice(1, -1)`). -/
def memEncode (oseq : Option Nat) (v : String) (osalt : Option String) :
    String :=
  (match osalt with
   | none => ""
   | some s => bencS "salt" ++ bencS s) ++
  (match oseq with
   | none => ""
   | some n => bencS "seq" ++ "i" ++ toString n ++ "e") ++
  bencS "v" ++ bencS v

/-- `MemoryBackend.getPayload`: derive the salt (caller's truthy salt or a
randomized digest of the data), fill `v`, `seq`, `salt`, `k` and sign the
canonical encoding of `(seq, v, opts.salt)`. -/
def getPayload (env : MemEnv) (pk : List Nat) (st : MemSt) (data : String)
    (opts : MemOpts) : WLRecord × MemSt :=
  let (salt, st₁) :=
    if truthyS opts.salt then (opts.salt.getD "", st)
    else getSha env st data
  let res : WLRecord :=
    { v := data
      seq := opts.seq
      salt := some salt
      k := some (bytesToHex pk) }
  let encoded := memEncode opts.seq data opts.salt
  ({ res with sig := some (env.sign encoded) }, st₁)

/-- The address a memory-backend `put` writes to when the caller supplies a
salt: `hex(utf8(hex(publicKey)) ‖ utf8(salt))` — note the double encoding,
`payload.k` is already the hex string of the key and is hex-encoded
again. -/
def memKey (pk : List Nat) (salt : String) : String :=
  bytesToHex (strBytes (bytesToHex pk) ++ strBytes salt)

/-- `MemoryBackend.put`: reject empty data, build the payload, compute the
address from `payload.k` and `payload.salt`, store when the address is
empty or the incoming `seq` is the successor of the stored one, and fail
with `ERR_CONFLICT_SEQ` otherwise (JavaScript `NaN`/`undefined` arithmetic
makes every comparison against an absent stored `seq` fail). -/
def put (env : MemEnv) (pk : List Nat) (st : MemSt) (data : String)
    (opts : MemOpts) : WLResult String × MemSt :=
  if data = "" then (.err "no data provided", st)
  else
    let (payload, st₁) := getPayload env pk st data opts
    let key :=
      bytesToHex (strBytes (payload.k.getD "") ++ strBytes (payload.salt.getD ""))
    match lookupStore st₁.store key with
    | none => (.ok key, { st₁ with store := (key, payload) :: st₁.store })
    | some old =>
      match old.seq, payload.seq with
      | some rs, some s =>
        if s = rs + 1 then
          (.ok key, { st₁ with store := (key, payload) :: st₁.store })
        else (.err "ERR_CONFLICT_SEQ", st₁)
      | _, _ => (.err "ERR_CONFLICT_SEQ", st₁)

end MemoryBackend

/-! ### Basic facts about slicing and joining -/

theorem chunkFuel_flatten (k : Nat) :
    ∀ f (l : List α), l.length ≤ f → (chunkFuel k f l).flatten = l := by
  intro f
  induction f with
  | zero =>
    intro l hl
    cases l with
    | nil => rfl
    | cons a l => simp at hl
  | succ f ih =>
    intro l hl
    cases l with
    | nil => rfl
    | cons a l =>
      simp only [chunkFuel, List.flatten_cons]
      have hd : (l.drop (k - 1)).length ≤ f := by
        have := List.length_drop (k - 1) l
        simp only [List.length_cons] at hl
        omega
      rw [ih _ hd]
      simp [List.cons_append, List.take_append_drop]

theorem chunkList_flatten (l : List α) (k : Nat) :
    (chunkList l k).flatten = l :=
  chunkFuel_flatten k l.length l le_rfl

theorem chunkFuel_chunk_len (k : Nat) (hk : 1 ≤ k) :
    ∀ f (l : List α) c, c ∈ chunkFuel k f l → c.length ≤ k := by
  intro f
  induction f with
  | zero => intro l c hc; simp [chunkFuel] at hc
  | succ f ih =>
    intro l c hc
    cases l with
    | nil => simp [chunkFuel] at hc
    | cons a l =>
      simp only [chunkFuel, List.mem_cons] at hc
      rcases hc with hc | hc
      · subst hc
        simp only [List.length_cons]
        have : (l.take (k - 1)).length ≤ k - 1 := by
          simp [List.length_take]
        omega
      · exact ih _ _ hc

theorem length_le_chunkList_mul (l : List α) (k : Nat) (hk : 1 ≤ k) :
    l.length ≤ (chunkList l k).length * k := by
  conv_lhs => rw [← chunkList_flatten l k]
  rw [List.length_flatten]
  have hsum : ((chunkList l k).map List.length).sum ≤
      ((chunkList l k).map (fun _ => k)).sum :=
    List.sum_le_sum fun c hc => chunkFuel_chunk_len k hk l.length l c hc
  calc ((chunkList l k).map List.length).sum
      ≤ ((chunkList l k).map (fun _ => k)).sum := hsum
    _ = (chunkList l k).length * k := by
        simp [List.map_const, List.sum_replicate, smul_eq_mul]

theorem sjoin_data (l : List String) :
    (sjoin l).data = (l.map String.data).flatten := by
  induction l with
  | nil => rfl
  | cons s l ih =>
    show (s ++ sjoin l).data = _
    simp [ih]

theorem sjoin_map_mk (l : List (List Char)) :
    sjoin (l.map fun c => (⟨c⟩ : String)) = ⟨l.flatten⟩ := by
  apply String.ext
  rw [sjoin_data, List.map_map]
  have h1 : String.data ∘ (fun c : List Char => (⟨c⟩ : String)) = id :=
    funext fun c => rfl
  rw [h1, List.map_id]

theorem prepareData_sjoin (data : String) (b : Nat) :
    sjoin (prepareData data b) = data := by
  unfold prepareData
  split
  · next h =>
    apply String.ext
    rw [sjoin_data]
    simp [h]
  · rw [sjoin_map_mk, chunkList_flatten]

theorem prepareData_single (data : String) (b : Nat) (s : String)
    (h : prepareData data b = [s]) : s = data := by
  have hj := prepareData_sjoin data b
  rw [h] at hj
  have : s ++ "" = s := by
    apply String.ext
    simp
  rwa [show sjoin [s] = s ++ "" from rfl, this] at hj

theorem prepareData_ne_nil (data : String) (b : Nat) :
    prepareData data b ≠ [] := by
  unfold prepareData
  split
  · simp
  · next h =>
    simp only [ne_eq, List.map_eq_nil_iff]
    intro hc
    have := chunkList_flatten data.data b
    rw [hc] at this
    exact h this.symm

theorem prepareData_count_gt (data : String) (b n : Nat) (hb : 1 ≤ b)
    (h : n * b < data.length) : n < (prepareData data b).length := by
  by_cases hemp : data.data = []
  · have : data.length = 0 := by simp [String.length, hemp]
    omega
  · by_contra hc
    push_neg at hc
    have hlen : data.data.length ≤ (chunkList data.data b).length * b :=
      length_le_chunkList_mul data.data b hb
    have hdl : (prepareData data b).length = (chunkList data.data b).length := by
      unfold prepareData
      rw [if_neg hemp]
      simp
    have hfin : data.length ≤ n * b := by
      calc data.length = data.data.length := rfl
        _ ≤ (chunkList data.data b).length * b := hlen
        _ = (prepareData data b).length * b := by rw [hdl]
        _ ≤ n * b := Nat.mul_le_mul_right b hc
    omega

theorem concatV_foldl (recs : List WLRecord) :
    ∀ acc : String, recs.foldl (fun a r => a ++ r.v) acc =
      acc ++ sjoin (recs.map (·.v)) := by
  induction recs with
  | nil =>
    intro acc
    apply String.ext
    simp [sjoin]
  | cons r recs ih =>
    intro acc
    simp only [List.foldl_cons, List.map_cons]
    rw [ih]
    apply String.ext
    simp [sjoin_data, List.append_assoc]

theorem concatV_eq_sjoin (recs : List WLRecord) :
    GrenacheBackend.concatV recs = sjoin (recs.map (·.v)) := by
  unfold GrenacheBackend.concatV
  rw [concatV_foldl]
  apply String.ext
  simp

/-! ### Injectivity of the ideal transport addresses -/

theorem unary_colon_split :
    ∀ (n₁ n₂ : Nat) (r₁ r₂ : List Char),
      unaryChars n₁ ++ ':' :: r₁ = unaryChars n₂ ++ ':' :: r₂ →
      n₁ = n₂ ∧ r₁ = r₂ := by
  intro n₁
  induction n₁ with
  | zero =>
    intro n₂ r₁ r₂ h
    cases n₂ with
    | zero => simpa [unaryChars] using h
    | succ n₂ =>
      simp only [unaryChars, List.replicate, List.nil_append,
        List.cons_append, List.cons.injEq] at h
      exact absurd h.1 (by decide)
  | succ n₁ ih =>
    intro n₂ r₁ r₂ h
    cases n₂ with
    | zero =>
      simp only [unaryChars, List.replicate, List.nil_append,
        List.cons_append, List.cons.injEq] at h
      exact absurd h.1 (by decide)
    | succ n₂ =>
      simp only [unaryChars, List.replicate, List.cons_append,
        List.cons.injEq, true_and] at h
      obtain ⟨n_eq, r_eq⟩ := ih n₂ r₁ r₂ h
      exact ⟨by omega, r_eq⟩

theorem saltChars_inj (s₁ s₂ : Option String)
    (h : saltChars s₁ = saltChars s₂) : s₁ = s₂ := by
  cases s₁ with
  | none =>
    cases s₂ with
    | none => rfl
    | some t => simp [saltChars] at h
  | some t =>
    cases s₂ with
    | none => simp [saltChars] at h
    | some u =>
      simp only [saltChars, List.cons.injEq, true_and] at h
      rw [String.ext h]

theorem immAddrOf_inj (v₁ v₂ : String)
    (h : immAddrOf v₁ = immAddrOf v₂) : v₁ = v₂ := by
  unfold immAddrOf at h
  have hd := congrArg String.data h
  simp only [List.cons_append, List.cons.injEq, true_and] at hd
  obtain ⟨_, hr⟩ := unary_colon_split _ _ _ _ hd
  exact String.ext hr

theorem immAddrOf_ne_empty (v : String) :
    immAddrOf v ≠ "" := by
  unfold immAddrOf
  intro h
  have := congrArg String.data h
  simp at this

theorem mutAddr_ne_empty (pk : String) (s : Option String) :
    mutAddr pk s ≠ "" := by
  unfold mutAddr
  intro h
  have := congrArg String.data h
  simp at this

theorem immAddrOf_ne_mutAddr (v pk : String) (s₂ : Option String) :
    immAddrOf v ≠ mutAddr pk s₂ := by
  unfold immAddrOf mutAddr
  intro h
  have hd := congrArg String.data h
  simp only [List.cons_append, List.cons.injEq] at hd
  exact absurd hd.1 (by decide)

/-! ### Correctness of the canonical pointer-buffer recognizer -/

theorem peel_append (p l : List Char) : peel p (p ++ l) = some l := by
  induction p with
  | nil => rfl
  | cons c p ih => simp [peel, ih]

theorem parseStrChars_esc :
    ∀ (cs r : List Char) (f : Nat), (escChars cs).length + 1 ≤ f →
      parseStrChars f (escChars cs ++ '"' :: r) = some (cs, r) := by
  intro cs
  induction cs with
  | nil =>
    intro r f hf
    cases f with
    | zero => simp [escChars] at hf
    | succ f => simp [escChars, parseStrChars]
  | cons c cs ih =>
    intro r f hf
    by_cases hc : c = '"' ∨ c = '\\'
    · have hesc : escChars (c :: cs) = '\\' :: c :: escChars cs := by
        simp [escChars, escChar, hc]
      rw [hesc] at hf ⊢
      cases f with
      | zero => simp at hf
      | succ f =>
        simp only [List.length_cons] at hf
        simp only [List.cons_append, parseStrChars, List.append_eq]
        rw [if_neg (by decide)]
        simp only [if_true]
        rw [ih r f (by omega)]
    · have hesc : escChars (c :: cs) = c :: escChars cs := by
        simp [escChars, escChar, hc]
      rw [hesc] at hf ⊢
      push_neg at hc
      cases f with
      | zero => simp at hf
      | succ f =>
        simp only [List.length_cons] at hf
        simp only [List.cons_append, parseStrChars, List.append_eq]
        rw [if_neg hc.1, if_neg hc.2, ih r f (by omega)]

theorem itemsChars_len_ge (ps : List String) :
    ps.length ≤ (itemsChars ps).length := by
  induction ps with
  | nil => simp [itemsChars]
  | cons p ps ih =>
    cases ps with
    | nil => simp [itemsChars]
    | cons q ps' =>
      simp only [itemsChars, List.length_append, List.length_cons] at *
      omega

theorem parseItems_items :
    ∀ (ps : List String) (f : Nat), ps ≠ [] → ps.length ≤ f →
      parseItems f (itemsChars ps ++ [']', '\x7d']) = some ps := by
  intro ps
  induction ps with
  | nil => intro f h _; exact absurd rfl h
  | cons p ps ih =>
    intro f _ hf
    cases f with
    | zero => simp at hf
    | succ f =>
      cases ps with
      | nil =>
        have hrest : itemsChars [p] ++ [']', '\x7d'] =
            '"' :: (escChars p.data ++ '"' :: [']', '\x7d']) := by
          simp [itemsChars]
        rw [hrest]
        simp only [parseItems, if_pos rfl]
        rw [parseStrChars_esc p.data [']', '\x7d'] _
          (by simp only [List.length_append, List.length_cons]; omega)]
        simp
      | cons q ps' =>
        have hrest : itemsChars (p :: q :: ps') ++ [']', '\x7d'] =
            '"' :: (escChars p.data ++ '"' ::
              (',' :: (itemsChars (q :: ps') ++ [']', '\x7d']))) := by
          simp [itemsChars]
        rw [hrest]
        simp only [parseItems, if_pos rfl]
        rw [parseStrChars_esc p.data (',' :: (itemsChars (q :: ps') ++ [']', '\x7d'])) _
          (by simp only [List.length_append, List.length_cons]; omega)]
        have hih : parseItems f (itemsChars (q :: ps') ++ [']', '\x7d']) =
            some (q :: ps') := by
          apply ih f (by simp)
          simp only [List.length_cons] at hf ⊢
          omega
        simp [hih]

theorem cjparse_wrap (ps : List String) : cjparse (wrapPointers ps) = some ps := by
  show (match peel headerChars (headerChars ++ itemsChars ps ++ [']', '\x7d']) with
    | none => none
    | some rest =>
      if rest = [']', '\x7d'] then some []
      else parseItems rest.length rest) = some ps
  rw [show headerChars ++ itemsChars ps ++ [']', '\x7d'] =
      headerChars ++ (itemsChars ps ++ [']', '\x7d']) from by
    simp [List.append_assoc]]
  rw [peel_append]
  cases ps with
  | nil => simp [itemsChars]
  | cons p ps' =>
    have hne : itemsChars (p :: ps') ++ [']', '\x7d'] ≠ [']', '\x7d'] := by
      cases ps' with
      | nil =>
        intro h
        simp only [itemsChars, List.cons_append, List.cons.injEq] at h
        exact absurd h.1 (by decide)
      | cons q ps'' =>
        intro h
        simp only [itemsChars, List.cons_append, List.append_assoc,
          List.cons.injEq] at h
        exact absurd h.1 (by decide)
    simp only [if_neg hne]
    apply parseItems_items (p :: ps') _ (by simp)
    have h1 := itemsChars_len_ge (p :: ps')
    simp only [List.length_cons] at h1
    simp only [List.length_append, List.length_cons]
    omega

/-! ### Preservation machinery for the ideal transport

A successful `put` never corrupts records it has itself stored: immutable
writes can only overwrite a content-addressed entry with an identical
record, and a mutable write of the `put`'s fixed sequence number at an
occupied address either conflicts (failing the `put`) or replaces an entry
whose stored sequence number differs from the one this `put` writes. -/

/-- The shape of an entry written by a `put` with options sequence `oseq`:
on the immutable path a content-addressed record kept by the transport
(`v` only — the transport ignores the salt for immutable writes), on the
mutable path a record carrying the sequence number `getPayload` produces
(`none` for the falsy `seq = 0`). -/
def Mine : Option Nat → String → WLRecord → Prop
  | none, a, r =>
    a = immAddrOf r.v ∧ r.seq = none ∧ r.salt = none ∧ r.k = none ∧
      r.sig = none ∧ r.id = none ∧ r.original = none
  | some s, _, r => r.seq = (if s = 0 then none else some s)

/-- Store evolution that preserves every entry of the given shape. -/
def Pres (oseq : Option Nat) (s₁ s₂ : Store) : Prop :=
  ∀ a r, lookupStore s₁ a = some r → Mine oseq a r → lookupStore s₂ a = some r

theorem Pres_refl (oseq : Option Nat) (s : Store) : Pres oseq s s :=
  fun _ _ h _ => h

theorem Pres_trans {oseq : Option Nat} {s₁ s₂ s₃ : Store}
    (h₁ : Pres oseq s₁ s₂) (h₂ : Pres oseq s₂ s₃) : Pres oseq s₁ s₃ :=
  fun a r hl hm => h₂ a r (h₁ a r hl hm) hm

/-- The salt field a stored record ends up with, as a function of the
`opts.seq` mode and the current `opts.salt` cell (truthiness included).
On the immutable path (`seq` undefined) the transport ignores the salt, so
the stored record has none; for the falsy `seq = 0` the payload builder
drops it; otherwise a truthy cell is kept. -/
def cellSalt : Option Nat → Option String → Option String
  | none, _ => none
  | some 0, _ => none
  | some _, none => none
  | some _, some d => saltify d

/-- A leaf of the pointer tree stored at address `p` with content `d`. -/
def GoodLeaf (oseq : Option Nat) (store : Store) (p d : String) : Prop :=
  p ≠ "" ∧ ∃ r, lookupStore store p = some r ∧ r.v = d ∧ Mine oseq p r

theorem GoodLeaf_mono {oseq : Option Nat} {s₁ s₂ : Store} {p d : String}
    (hp : Pres oseq s₁ s₂) (h : GoodLeaf oseq s₁ p d) :
    GoodLeaf oseq s₂ p d := by
  obtain ⟨hne, r, hl, hv, hm⟩ := h
  exact ⟨hne, r, hp p r hl hm, hv, hm⟩

theorem lookupStore_cons (a : String) (r : WLRecord) (s : Store) (b : String) :
    lookupStore ((a, r) :: s) b = if a = b then some r else lookupStore s b :=
  rfl

/-- Field computation of `getPayload`: the published value is always the
data; `k`, `sig`, `id`, `original` are never set by the backend. -/
theorem getPayload_fields (so : Option String) (data : String)
    (oseq : Option Nat) :
    (GrenacheBackend.getPayload so data oseq).v = data ∧
    (GrenacheBackend.getPayload so data oseq).k = none ∧
    (GrenacheBackend.getPayload so data oseq).sig = none ∧
    (GrenacheBackend.getPayload so data oseq).id = none ∧
    (GrenacheBackend.getPayload so data oseq).original = none := by
  rcases oseq with _ | (_ | s)
  · exact ⟨rfl, rfl, rfl, rfl, rfl⟩
  · exact ⟨rfl, rfl, rfl, rfl, rfl⟩
  · by_cases h : truthyS so = true <;>
      simp [GrenacheBackend.getPayload, h]

/-- Sequence field of `getPayload`: dropped for undefined and for the falsy
`seq = 0`, kept otherwise. -/
theorem getPayload_seq (so : Option String) (data : String)
    (oseq : Option Nat) :
    (GrenacheBackend.getPayload so data oseq).seq =
      (match oseq with
       | none => none
       | some s => if s = 0 then none else some s) := by
  rcases oseq with _ | (_ | s)
  · rfl
  · rfl
  · by_cases h : truthyS so = true <;>
      simp [GrenacheBackend.getPayload, h]

/-- Salt field of `getPayload` on the mutable path with a nonzero `seq`. -/
theorem getPayload_salt_pos (so : Option String) (data : String) (s : Nat)
    (hs : s ≠ 0) :
    (GrenacheBackend.getPayload so data (some s)).salt = cellSalt (some s) so := by
  cases s with
  | zero => exact absurd rfl hs
  | succ s =>
    cases so with
    | none => simp [GrenacheBackend.getPayload, truthyS, cellSalt]
    | some d =>
      by_cases hd : d = "" <;>
        simp [GrenacheBackend.getPayload, truthyS, hd, cellSalt, saltify]

/-- Salt field of `getPayload` on the mutable path, all sequence values. -/
theorem getPayload_salt (so : Option String) (data : String) (s : Nat) :
    (GrenacheBackend.getPayload so data (some s)).salt = cellSalt (some s) so := by
  cases s with
  | zero => cases so <;> rfl
  | succ s' => exact getPayload_salt_pos so data _ (Nat.succ_ne_zero s')

/-- Specification of a successful `send`: the state is extended by one
record holding the sent data with the salt dictated by the mode and the
`opts.salt` cell; every previously stored entry of this `put`'s shape is
preserved. -/
theorem send_ok_spec (env : Env) (conf : Conf) (st : PSt) (data : String)
    (oseq : Option Nat) (a : String) (st₁ : PSt)
    (h : GrenacheBackend.send env conf st data oseq = .ok (a, st₁)) :
    st₁.rnd = st.rnd ∧ st₁.saltOpt = st.saltOpt ∧
    Pres oseq st.store st₁.store ∧ a ≠ "" ∧
    ∃ r, lookupStore st₁.store a = some r ∧ r.v = data ∧
      r.salt = cellSalt oseq st.saltOpt ∧ Mine oseq a r := by
  cases oseq with
  | none =>
    unfold GrenacheBackend.send GrenacheBackend.sendImmutable tPutImm at h
    simp only [GrenacheBackend.getPayload, WLResult.ok.injEq, Prod.mk.injEq] at h
    obtain ⟨ha, hst⟩ := h
    set payload : WLRecord :=
      (if truthyS st.saltOpt = true then { v := data, salt := st.saltOpt }
       else { v := data })
      with hpayload
    have hv : payload.v = data := by
      rw [hpayload]; split <;> rfl
    refine ⟨by rw [← hst], by rw [← hst], ?_, ?_, ?_⟩
    · intro b rb hl hm
      rw [← hst]
      simp only [lookupStore_cons]
      by_cases hab : immAddrOf payload.v = b
      · obtain ⟨hmb, hseqb, hsaltb, hkb, hsigb, hidb, horigb⟩ := hm
        have hadr : immAddrOf rb.v = immAddrOf payload.v := by
          rw [← hmb, hab]
        have hv2 := immAddrOf_inj _ _ hadr
        have hrp : rb = ({ v := payload.v } : WLRecord) := by
          have e1 : rb = ⟨rb.v, rb.seq, rb.salt, rb.k, rb.sig, rb.id,
              rb.original⟩ := rfl
          rw [e1, hv2, hseqb, hsaltb, hkb, hsigb, hidb, horigb]
        rw [if_pos hab, hrp]
      · rw [if_neg hab]; exact hl
    · rw [← ha]; exact immAddrOf_ne_empty _
    · refine ⟨{ v := payload.v }, ?_, hv, rfl, ?_⟩
      · rw [← hst, ← ha]
        simp [lookupStore_cons]
      · rw [← ha]
        exact ⟨rfl, rfl, rfl, rfl, rfl, rfl, rfl⟩
  | some s =>
    unfold GrenacheBackend.send at h
    cases hk : conf.keys with
    | none => rw [hk] at h; exact absurd h (by simp)
    | some pk =>
      rw [hk] at h
      unfold tPutMut at h
      simp only [] at h
      set payload := GrenacheBackend.getPayload st.saltOpt data (some s)
        with hpayload
      have hv : payload.v = data := (getPayload_fields _ _ _).1
      have hseq : payload.seq = (if s = 0 then none else some s) := by
        rw [hpayload, getPayload_seq]
      have hsalt : ({ payload with k := some pk } : WLRecord).salt =
          cellSalt (some s) st.saltOpt := by
        show payload.salt = _
        rw [hpayload]
        exact getPayload_salt _ _ _
      set stored : WLRecord := { payload with k := some pk } with hstored
      cases hl0 : lookupStore st.store (mutAddr pk st.saltOpt) with
      | none =>
        rw [hl0] at h
        simp only [WLResult.ok.injEq, Prod.mk.injEq] at h
        obtain ⟨ha, hst⟩ := h
        refine ⟨by rw [← hst], by rw [← hst], ?_, ?_, ?_⟩
        · intro b rb hl hm
          rw [← hst]
          simp only [lookupStore_cons]
          by_cases hab : mutAddr pk st.saltOpt = b
          · rw [← hab] at hl
            rw [hl0] at hl
            exact absurd hl (by simp)
          · rw [if_neg hab]; exact hl
        · rw [← ha]; exact mutAddr_ne_empty _ _
        · refine ⟨stored, ?_, hv, hsalt, ?_⟩
          · rw [← hst, ← ha]
            simp [lookupStore_cons]
          · show stored.seq = _
            rw [hstored]
            show payload.seq = _
            exact hseq
      | some old =>
        rw [hl0] at h
        simp only [] at h
        cases hos : old.seq with
        | none => rw [hos] at h; simp only [] at h; exact absurd h (by simp)
        | some rs =>
          rw [hos] at h
          simp only [] at h
          by_cases hrs : s = rs + 1
          · rw [if_pos hrs] at h
            simp only [WLResult.ok.injEq, Prod.mk.injEq] at h
            obtain ⟨ha, hst⟩ := h
            refine ⟨by rw [← hst], by rw [← hst], ?_, ?_, ?_⟩
            · intro b rb hl hm
              rw [← hst]
              simp only [lookupStore_cons]
              by_cases hab : mutAddr pk st.saltOpt = b
              · rw [← hab] at hl
                rw [hl0] at hl
                have hrb : rb = old := by
                  have := hl
                  simp only [hl0, Option.some.injEq] at this
                  exact this.symm
                have hmb : rb.seq = (if s = 0 then none else some s) := hm
                rw [hrb, hos] at hmb
                rw [if_neg (by omega)] at hmb
                simp only [Option.some.injEq] at hmb
                omega
              · rw [if_neg hab]; exact hl
            · rw [← ha]; exact mutAddr_ne_empty _ _
            · refine ⟨stored, ?_, hv, hsalt, ?_⟩
              · rw [← hst, ← ha]
                simp [lookupStore_cons]
              · show stored.seq = _
                rw [hstored]
                show payload.seq = _
                exact hseq
          · rw [if_neg hrs] at h
            exact absurd h (by simp)

/-- Specification of a successful `storeParallel`: one leaf record per
slice, in input order, each salted with a digest of its own content and
one draw of randomness; previously stored entries of this `put`'s shape
are preserved and the randomness counter advances once per slice. -/
theorem storeParallel_ok_spec (env : Env) (conf : Conf) (oseq : Option Nat) :
    ∀ (slices : List String) (st : PSt) (ptrs : List String) (st₁ : PSt),
      GrenacheBackend.storeParallel env conf oseq st slices = .ok (ptrs, st₁) →
      st₁.rnd = st.rnd + slices.length ∧
      Pres oseq st.store st₁.store ∧
      List.Forall₂
        (fun (p : String) (iv : Nat × String) =>
          p ≠ "" ∧ ∃ r, lookupStore st₁.store p = some r ∧ r.v = iv.2 ∧
            r.salt = cellSalt oseq (some (env.sha (iv.2 ++ env.rand iv.1))) ∧
            Mine oseq p r)
        ptrs (List.enumFrom st.rnd slices) := by
  intro slices
  induction slices with
  | nil =>
    intro st ptrs st₁ h
    simp only [GrenacheBackend.storeParallel, WLResult.ok.injEq,
      Prod.mk.injEq] at h
    obtain ⟨hp, hst⟩ := h
    subst hp
    subst hst
    exact ⟨rfl, Pres_refl _ _, by simp⟩
  | cons chunk rest ih =>
    intro st ptrs st₁ h
    simp only [GrenacheBackend.storeParallel, GrenacheBackend.getSha] at h
    split at h
    case _ a st₃ hsend =>
      split at h
      case _ as st₄ hrest =>
        simp only [WLResult.ok.injEq, Prod.mk.injEq] at h
        obtain ⟨hp, hst⟩ := h
        subst hp
        subst hst
        obtain ⟨hrnd₃, hsalt₃, hpres₃, hane, r, hlr, hrv, hrsalt, hrm⟩ :=
          send_ok_spec env conf _ chunk oseq a st₃ hsend
        obtain ⟨hrnd₄, hpres₄, hfor₄⟩ := ih st₃ as _ hrest
        simp only at hrnd₃ hsalt₃ hpres₃
        refine ⟨?_, Pres_trans hpres₃ hpres₄, ?_⟩
        · rw [hrnd₄, hrnd₃]
          simp only [List.length_cons]
          omega
        · rw [List.enumFrom_cons]
          refine List.Forall₂.cons ⟨hane, ?_⟩ ?_
          · refine ⟨r, hpres₄ a r hlr hrm, hrv, ?_, hrm⟩
            simpa using hrsalt
          · rw [hrnd₃] at hfor₄
            exact hfor₄
      case _ e => simp at h
      case _ => simp at h
      case _ => simp at h
    case _ e => simp at h
    case _ => simp at h
    case _ => simp at h

/-- Weaken an indexed `Forall₂` over `enumFrom` to one over the plain
list. -/
theorem forall₂_enumFrom_imp {α : Type} {P : String → Nat × α → Prop}
    {Q : String → α → Prop} (h : ∀ p i v, P p (i, v) → Q p v) :
    ∀ (n : Nat) (l : List α) (ptrs : List String),
      List.Forall₂ P ptrs (List.enumFrom n l) → List.Forall₂ Q ptrs l := by
  intro n l
  induction l generalizing n with
  | nil =>
    intro ptrs hf
    simp only [List.enumFrom_nil, List.forall₂_nil_right_iff] at hf
    subst hf
    exact .nil
  | cons a l ihl =>
    intro ptrs hf
    rw [List.enumFrom_cons] at hf
    cases hf with
    | cons hpa htail => exact .cons (h _ _ _ hpa) (ihl _ _ htail)

/-- A successful `storeParallel` leaves one good leaf per slice. -/
theorem storeParallel_good (env : Env) (conf : Conf) (oseq : Option Nat)
    (slices : List String) (st : PSt) (ptrs : List String) (st₁ : PSt)
    (h : GrenacheBackend.storeParallel env conf oseq st slices =
      .ok (ptrs, st₁)) :
    List.Forall₂ (GoodLeaf oseq st₁.store) ptrs slices := by
  have hspec := (storeParallel_ok_spec env conf oseq slices st ptrs st₁ h).2.2
  refine forall₂_enumFrom_imp ?_ st.rnd slices ptrs hspec
  rintro p i v ⟨hne, r, hl, hv, _, hm⟩
  exact ⟨hne, r, hl, hv, hm⟩

/-- Fetching good leaves succeeds and returns records whose values are the
leaf contents, in order. -/
theorem fetchPointers_of_good {oseq : Option Nat} {store : Store}
    {ptrs slices : List String}
    (hf : List.Forall₂ (GoodLeaf oseq store) ptrs slices) :
    ∃ recs, GrenacheBackend.fetchPointers store ptrs = .ok recs ∧
      recs.map (·.v) = slices := by
  induction hf with
  | nil => exact ⟨[], rfl, rfl⟩
  | @cons p d ptrs' slices' hpd htail ih =>
    obtain ⟨recs, hfetch, hmap⟩ := ih
    obtain ⟨hne, r, hl, hv, _⟩ := hpd
    refine ⟨r :: recs, ?_, by simp [hmap, hv]⟩
    simp only [GrenacheBackend.fetchPointers, GrenacheBackend.rawGet,
      if_neg hne, hl, hfetch]

/-- Specification of a successful `storeBoxes`: per-box good leaves,
preserved into the final state. -/
theorem storeBoxes_ok_spec (env : Env) (conf : Conf) (oseq : Option Nat) :
    ∀ (boxes : List (List String)) (st : PSt) (pss : List (List String))
      (st₁ : PSt),
      GrenacheBackend.storeBoxes env conf oseq st boxes = .ok (pss, st₁) →
      Pres oseq st.store st₁.store ∧
      List.Forall₂ (List.Forall₂ (GoodLeaf oseq st₁.store)) pss boxes := by
  intro boxes
  induction boxes with
  | nil =>
    intro st pss st₁ h
    simp only [GrenacheBackend.storeBoxes, WLResult.ok.injEq,
      Prod.mk.injEq] at h
    obtain ⟨hp, hst⟩ := h
    subst hp
    subst hst
    exact ⟨Pres_refl _ _, .nil⟩
  | cons box rest ih =>
    intro st pss st₁ h
    simp only [GrenacheBackend.storeBoxes] at h
    split at h
    case _ ptrs stP hsp =>
      split at h
      case _ pss' st₄ hrest =>
        simp only [WLResult.ok.injEq, Prod.mk.injEq] at h
        obtain ⟨hp, hst⟩ := h
        subst hp
        subst hst
        have hgood := storeParallel_good env conf oseq box st ptrs stP hsp
        have hpresP := (storeParallel_ok_spec env conf oseq box st ptrs
          stP hsp).2.1
        obtain ⟨hpres₄, hfor₄⟩ := ih stP pss' _ hrest
        refine ⟨Pres_trans hpresP hpres₄, ?_⟩
        refine List.Forall₂.cons ?_ hfor₄
        exact hgood.imp fun p d hg => GoodLeaf_mono hpres₄ hg
      case _ e => simp at h
      case _ => simp at h
      case _ => simp at h
    case _ e => simp at h
    case _ => simp at h
    case _ => simp at h

/-! ### The reassembly relation

`RStarD env store r d k` says that starting from record `r`, `k` rounds of
`maybeRetrieveChunked`'s pointer-chasing (parse `v`, fetch the children,
concatenate) turn the record's `v` into `d`. -/

inductive RStarD (env : Env) (store : Store) :
    WLRecord → String → Nat → Prop where
  | refl (r : WLRecord) : RStarD env store r r.v 0
  | step (r : WLRecord) (ptrs : List String) (recs : List WLRecord)
      (d : String) (k : Nat) :
      env.jparse r.v = some ptrs →
      GrenacheBackend.fetchPointers store ptrs = .ok recs →
      RStarD env store
        { r with original := some r.v, v := GrenacheBackend.concatV recs } d k →
      RStarD env store r d (k + 1)

/-- Append one more reassembly round at the end of an `RStarD` chain. -/
theorem RStarD_snoc {env : Env} {store : Store} {r : WLRecord} {d : String}
    {k : Nat} (h : RStarD env store r d k) {ptrs : List String}
    {recs : List WLRecord} (hp : env.jparse d = some ptrs)
    (hf : GrenacheBackend.fetchPointers store ptrs = .ok recs) :
    RStarD env store r (GrenacheBackend.concatV recs) (k + 1) := by
  induction h with
  | refl r =>
    exact RStarD.step r ptrs recs _ 0 hp hf (RStarD.refl _)
  | step r ptrs' recs' d' k' hp' hf' _ ih =>
    exact RStarD.step r ptrs' recs' _ _ hp' hf' (ih hp)

/-- Run an `RStarD` chain through `maybeRetrieveChunked`: when the final
value no longer parses as a pointer buffer, any fuel above the chain length
yields it. -/
theorem RStarD_mrc {env : Env} {store : Store} {r : WLRecord} {d : String}
    {k : Nat} (h : RStarD env store r d k) (hnp : env.jparse d = none) :
    ∃ r₁, r₁.v = d ∧ ∀ g, k < g →
      GrenacheBackend.maybeRetrieveChunked env store g r = .ok r₁ := by
  induction h with
  | refl r =>
    refine ⟨r, rfl, ?_⟩
    intro g hg
    cases g with
    | zero => omega
    | succ g =>
      simp only [GrenacheBackend.maybeRetrieveChunked, hnp]
  | step r ptrs recs d' k' hp hf _ ih =>
    obtain ⟨r₁, hv₁, hmrc⟩ := ih hnp
    refine ⟨r₁, hv₁, ?_⟩
    intro g hg
    cases g with
    | zero => omega
    | succ g =>
      simp only [GrenacheBackend.maybeRetrieveChunked, hp, hf]
      exact hmrc g (by omega)

/-- Main specification of a successful `put`: the final state preserves
previously stored entries of the put's shape, and in any further-extended
store the returned address holds a record that reassembles to the payload
in at most `f` rounds (the conclusion quantifies over extended stores so
the multi-level case can compose with its own later writes). -/
theorem put_ok_spec :
    ∀ (f : Nat) (env : Env) (conf : Conf) (st : PSt) (data : String)
      (oseq : Option Nat) (a : String) (st₁ : PSt),
      (∀ l, env.jparse (wrapPointers l) = some l) →
      GrenacheBackend.put env conf f st data oseq = .ok (a, st₁) →
      Pres oseq st.store st₁.store ∧ a ≠ "" ∧
      ∀ store₂, Pres oseq st₁.store store₂ →
        ∃ r₀ k, lookupStore store₂ a = some r₀ ∧ k ≤ f ∧
          RStarD env store₂ r₀ data k := by
  intro f
  induction f with
  | zero =>
    intro env conf st data oseq a st₁ hc hput
    exact absurd hput (by simp [GrenacheBackend.put])
  | succ f ih =>
    intro env conf st data oseq a st₁ hc hput
    rw [GrenacheBackend.put] at hput
    by_cases hone : (prepareData data conf.bufferSizelimit).length = 1
    · rw [if_pos hone] at hput
      obtain ⟨sl, hsl⟩ := List.length_eq_one.mp hone
      have hhead : (prepareData data conf.bufferSizelimit).headD "" = data := by
        rw [hsl]
        exact prepareData_single data conf.bufferSizelimit sl hsl
      set st₂ :=
        (if truthyS st.saltOpt = true then st
         else
           let p := GrenacheBackend.getSha env st
             ((prepareData data conf.bufferSizelimit).headD "")
           { p.2 with saltOpt := some p.1 }) with hst₂
      have hst₂store : st₂.store = st.store := by
        rw [hst₂]
        split
        · rfl
        · rfl
      rw [hhead] at hput
      obtain ⟨_, _, hpres, hane, r, hlr, hrv, _, hrm⟩ :=
        send_ok_spec env conf st₂ data oseq a st₁ hput
      rw [hst₂store] at hpres
      refine ⟨hpres, hane, ?_⟩
      intro store₂ hp₂
      refine ⟨r, 0, hp₂ a r hlr hrm, by omega, ?_⟩
      have hrefl : RStarD env store₂ r r.v 0 := RStarD.refl r
      rwa [hrv] at hrefl
    · rw [if_neg hone] at hput
      by_cases hlt : (prepareData data conf.bufferSizelimit).length <
          getMaxPointersPerBuffer conf.bufferSizelimit conf.addressSize
      · rw [if_pos hlt] at hput
        split at hput
        case _ pointers stP hsp =>
          rw [GrenacheBackend.wrapAndStorePointers] at hput
          simp only [GrenacheBackend.getSha] at hput
          obtain ⟨_, _, hpresS, hane, r, hlr, hrv, _, hrm⟩ :=
            send_ok_spec env conf _ _ oseq a st₁ hput
          have hpresP := (storeParallel_ok_spec env conf oseq _ st pointers
            stP hsp).2.1
          have hgood := storeParallel_good env conf oseq _ st pointers stP hsp
          simp only at hpresS
          refine ⟨Pres_trans hpresP hpresS, hane, ?_⟩
          intro store₂ hp₂
          have hgood₂ : List.Forall₂ (GoodLeaf oseq store₂) pointers
              (prepareData data conf.bufferSizelimit) :=
            hgood.imp fun p d hg =>
              GoodLeaf_mono (Pres_trans hpresS hp₂) hg
          obtain ⟨recs, hfetch, hmap⟩ := fetchPointers_of_good hgood₂
          have hconcat : GrenacheBackend.concatV recs = data := by
            rw [concatV_eq_sjoin, hmap, prepareData_sjoin]
          refine ⟨r, 1, hp₂ a r hlr hrm, by omega, ?_⟩
          have hstep : RStarD env store₂ r (GrenacheBackend.concatV recs) 1 :=
            RStarD.step r pointers recs (GrenacheBackend.concatV recs) 0
              (by rw [hrv]; exact hc pointers) hfetch (RStarD.refl _)
          rwa [hconcat] at hstep
        case _ e => simp at hput
        case _ => simp at hput
        case _ => simp at hput
      · rw [if_neg hlt] at hput
        by_cases hbig : getSliceLimit conf.bufferSizelimit
            (getMaxPointersPerBuffer conf.bufferSizelimit conf.addressSize)
            conf.maxIndirections <
            (prepareData data conf.bufferSizelimit).length
        · rw [if_pos hbig] at hput
          exact absurd hput (by simp)
        · rw [if_neg hbig] at hput
          have hput₂ :
              (match GrenacheBackend.storeBoxes env conf oseq st
                  (prepareMultiLevelData
                    (prepareData data conf.bufferSizelimit)
                    (getMaxPointersPerBuffer conf.bufferSizelimit
                      conf.addressSize)) with
                | WLResult.ok (res, st₃) =>
                  GrenacheBackend.put env conf f st₃
                    (wrapPointers res.flatten) oseq
                | WLResult.err _ => WLResult.hang
                | WLResult.hang => WLResult.hang
                | WLResult.fuelOut => WLResult.fuelOut) =
                WLResult.ok (a, st₁) := hput
          clear hput
          split at hput₂
          case _ res stB hsb =>
            obtain ⟨hpresRec, hane, hG⟩ :=
              ih env conf stB (wrapPointers res.flatten) oseq a st₁ hc hput₂
            obtain ⟨hpresB, hforB⟩ :=
              storeBoxes_ok_spec env conf oseq _ st res stB hsb
            refine ⟨Pres_trans hpresB hpresRec, hane, ?_⟩
            intro store₂ hp₂
            obtain ⟨r₀, k', hl₀, hk', hstar⟩ := hG store₂ hp₂
            have hflat : List.Forall₂ (GoodLeaf oseq stB.store) res.flatten
                (prepareMultiLevelData (prepareData data conf.bufferSizelimit)
                  (getMaxPointersPerBuffer conf.bufferSizelimit
                    conf.addressSize)).flatten :=
              List.rel_flatten hforB
            rw [prepareMultiLevelData, chunkList_flatten] at hflat
            have hflat₂ : List.Forall₂ (GoodLeaf oseq store₂) res.flatten
                (prepareData data conf.bufferSizelimit) :=
              hflat.imp fun p d hg =>
                GoodLeaf_mono (Pres_trans hpresRec hp₂) hg
            obtain ⟨recs, hfetch, hmap⟩ := fetchPointers_of_good hflat₂
            have hconcat : GrenacheBackend.concatV recs = data := by
              rw [concatV_eq_sjoin, hmap, prepareData_sjoin]
            refine ⟨r₀, k' + 1, hl₀, by omega, ?_⟩
            have hsnoc := RStarD_snoc hstar (hc res.flatten) hfetch
            rwa [hconcat] at hsnoc
          case _ e => simp at hput₂
          case _ => simp at hput₂
          case _ => simp at hput₂

/-! ### Witness and counterexample fixtures -/

/-- Concrete environment for witnesses and counterexamples: constant
digest, empty randomness, canonical parse. -/
def envW : Env :=
  { sha := fun _ => "s", rand := fun _ => "", jparse := cjparse }

/-- Fresh put-state over an empty transport. -/
def pstW : PSt := { store := [] }

/-- Default configuration (no keys: immutable writes). -/
def confW : Conf := {}

/-- The put-state after `put envW confW 1 pstW "hello" none`. -/
def wSt1 : PSt :=
  { store := [("mxxxxx:hello", { v := "hello" })]
    rnd := 1
    saltOpt := some "s" }

/-- C1 — Round-trip (amended): for every payload and options under which
`put` succeeds, and any parse function that recovers canonical pointer
buffers, `get` on the returned address without the recursive flag
reassembles a record whose `v` equals the payload byte-for-byte, provided
the payload itself does not deserialize to a pointer buffer.  (The original
claim, without that proviso, is refuted by
`put_get_roundtrip_counterexample`.) -/
theorem put_get_roundtrip (f : Nat) (env : Env) (conf : Conf) (st : PSt)
    (data : String) (oseq : Option Nat) (a : String) (st₁ : PSt)
    (hc : ∀ l, env.jparse (wrapPointers l) = some l)
    (hnp : env.jparse data = none)
    (hput : GrenacheBackend.put env conf f st data oseq = .ok (a, st₁)) :
    vOf (GrenacheBackend.get env st₁.store (f + 1) a false) = .ok data := by
  obtain ⟨hpres, hane, hG⟩ :=
    put_ok_spec f env conf st data oseq a st₁ hc hput
  obtain ⟨r₀, k, hl₀, hk, hstar⟩ := hG st₁.store (Pres_refl _ _)
  obtain ⟨r₁, hv₁, hmrc⟩ := RStarD_mrc hstar hnp
  unfold GrenacheBackend.get
  rw [if_neg hane, hl₀]
  simp only [Bool.false_eq_true, if_false]
  rw [hmrc (f + 1) (by omega)]
  simp [vOf, hv₁]

/-- Witness for C1's amended round-trip at a concrete single-slice put. -/
theorem put_get_roundtrip_witness :
    GrenacheBackend.put envW confW 1 pstW "hello" none =
      .ok ("mxxxxx:hello", wSt1) ∧
    vOf (GrenacheBackend.get envW wSt1.store 2 "mxxxxx:hello" false) =
      .ok "hello" := by
  have hp : GrenacheBackend.put envW confW 1 pstW "hello" none =
      .ok ("mxxxxx:hello", wSt1) := by decide
  exact ⟨hp, put_get_roundtrip 1 envW confW pstW "hello" none
    "mxxxxx:hello" wSt1 (fun l => cjparse_wrap l) (by decide) hp⟩

/-- Adversarial payload for C1: a payload that is itself a canonical
pointer-buffer serialization (spec §8.7's discriminator hazard). -/
def pBadC1 : String := wrapPointers ["zz"]

/-- Configuration whose `bufferSizelimit` equals the adversarial payload's
length, so the payload is a single slice well within capacity. -/
def confC1 : Conf := { bufferSizelimit := 40, addressSize := 1 }

/-- The adversarial put (succeeds: one slice, immutable path). -/
def c1cexPut : WLResult (String × PSt) :=
  GrenacheBackend.put envW confC1 2 pstW pBadC1 none

/-- Whether the adversarial put reached its callback with an address. -/
def c1cexPutOk : Bool :=
  match c1cexPut with
  | .ok _ => true
  | _ => false

/-- The subsequent get of the stored payload (reassembly chases the bogus
pointer `"zz"` and fails on the missing child instead of returning the
payload). -/
def c1cexGet : WLResult String :=
  match c1cexPut with
  | .ok (a, st₁) => vOf (GrenacheBackend.get envW st₁.store 5 a false)
  | _ => .err "put failed"

/-- Counterexample to C1 as stated: a payload of length exactly
`bufferSizeLimit` on which `put` succeeds but `get` does not return a
record whose `v` equals the payload — the payload deserializes to a
pointer buffer and the reassembler misinterprets it. -/
theorem put_get_roundtrip_counterexample :
    c1cexPutOk = true ∧
    pBadC1.length = confC1.bufferSizelimit ∧
    envW.jparse pBadC1 = some ["zz"] ∧
    c1cexGet = .err "not found" := by
  refine ⟨by decide, by decide, by decide, by decide⟩

/-- C2 — Capacity boundary: a payload longer than
`K ^ maxIndirections · bufferSizeLimit` (slice count above the slice
limit) makes `put` fail with the capacity error before storing anything. -/
theorem put_capacity_error (f : Nat) (env : Env) (conf : Conf) (st : PSt)
    (data : String) (oseq : Option Nat)
    (hb : 1 ≤ conf.bufferSizelimit)
    (hk : 2 ≤ getMaxPointersPerBuffer conf.bufferSizelimit conf.addressSize)
    (hd : 1 ≤ conf.maxIndirections)
    (hlen : getSliceLimit conf.bufferSizelimit
        (getMaxPointersPerBuffer conf.bufferSizelimit conf.addressSize)
        conf.maxIndirections * conf.bufferSizelimit < data.length) :
    GrenacheBackend.put env conf (f + 1) st data oseq =
      .err "data too large: adjust maxIndirections" := by
  have hcnt : getSliceLimit conf.bufferSizelimit
      (getMaxPointersPerBuffer conf.bufferSizelimit conf.addressSize)
      conf.maxIndirections <
      (prepareData data conf.bufferSizelimit).length :=
    prepareData_count_gt data conf.bufferSizelimit _ hb hlen
  have hKD : getMaxPointersPerBuffer conf.bufferSizelimit conf.addressSize ≤
      getSliceLimit conf.bufferSizelimit
        (getMaxPointersPerBuffer conf.bufferSizelimit conf.addressSize)
        conf.maxIndirections := by
    unfold getSliceLimit
    calc getMaxPointersPerBuffer conf.bufferSizelimit conf.addressSize
        = getMaxPointersPerBuffer conf.bufferSizelimit conf.addressSize ^ 1 :=
          (pow_one _).symm
      _ ≤ getMaxPointersPerBuffer conf.bufferSizelimit conf.addressSize ^
            conf.maxIndirections :=
          Nat.pow_le_pow_right (by omega) hd
  rw [GrenacheBackend.put]
  rw [if_neg (by omega)]
  rw [if_neg (by omega)]
  rw [if_pos (by omega)]

/-- Configuration for the C2 witness: fan-out 2, one indirection, slice
limit 2, capacity 88 bytes. -/
def confC2 : Conf :=
  { bufferSizelimit := 44
    addressSize := 1
    maxIndirections := 1 }

/-- An 89-byte payload: one byte over capacity. -/
def dataC2 : String := ⟨List.replicate 89 'a'⟩

/-- Witness for C2 at a concrete over-capacity payload. -/
theorem put_capacity_error_witness :
    getMaxPointersPerBuffer confC2.bufferSizelimit confC2.addressSize = 2 ∧
    GrenacheBackend.put envW confC2 1 pstW dataC2 none =
      .err "data too large: adjust maxIndirections" := by
  refine ⟨by decide, ?_⟩
  exact put_capacity_error 0 envW confC2 pstW dataC2 none (by decide)
    (by decide) (by decide) (by decide)

/-! ### Memory-backend claims -/

/-- `MemoryBackend.getPayload` with a caller-supplied (truthy) salt:
deterministic, no randomness consumed. -/
theorem mem_getPayload_salted (env : MemoryBackend.MemEnv) (pk : List Nat)
    (st : MemoryBackend.MemSt) (data : String) (opts : MemoryBackend.MemOpts)
    (sl : String) (hs : opts.salt = some sl) (hne : sl ≠ "") :
    MemoryBackend.getPayload env pk st data opts =
      ({ v := data
         seq := opts.seq
         salt := some sl
         k := some (bytesToHex pk)
         sig := some (env.sign
           (MemoryBackend.memEncode opts.seq data opts.salt)) }, st) := by
  unfold MemoryBackend.getPayload
  rw [hs]
  simp [truthyS, hne]

/-- Evaluation of a salted `MemoryBackend.put` on nonempty data. -/
theorem mem_put_salted_eval (env : MemoryBackend.MemEnv) (pk : List Nat)
    (st : MemoryBackend.MemSt) (data : String) (opts : MemoryBackend.MemOpts)
    (sl : String) (hd : data ≠ "") (hs : opts.salt = some sl)
    (hne : sl ≠ "") :
    MemoryBackend.put env pk st data opts =
      (let payload : WLRecord :=
        { v := data
          seq := opts.seq
          salt := some sl
          k := some (bytesToHex pk)
          sig := some (env.sign
            (MemoryBackend.memEncode opts.seq data opts.salt)) }
      match lookupStore st.store (MemoryBackend.memKey pk sl) with
      | none =>
        (.ok (MemoryBackend.memKey pk sl),
         { st with store := (MemoryBackend.memKey pk sl, payload) :: st.store })
      | some old =>
        match old.seq, opts.seq with
        | some rs, some s =>
          if s = rs + 1 then
            (.ok (MemoryBackend.memKey pk sl),
             { st with store :=
                (MemoryBackend.memKey pk sl, payload) :: st.store })
          else (.err "ERR_CONFLICT_SEQ", st)
        | _, _ => (.err "ERR_CONFLICT_SEQ", st)) := by
  unfold MemoryBackend.put
  rw [if_neg hd, mem_getPayload_salted env pk st data opts sl hs hne]
  rfl

/-- C3 — Sequence gate of the memory backend, amended to nonempty data
(the original claim over all puts is refuted by
`mem_put_seq_gate_counterexample`): with a caller salt fixing the address,
a put is accepted exactly when the address is empty or the incoming `seq`
is the successor of the stored one; otherwise it fails with
`ERR_CONFLICT_SEQ`, and a subsequent put with the successor `seq`
succeeds. -/
theorem mem_put_seq_gate (env : MemoryBackend.MemEnv) (pk : List Nat)
    (st : MemoryBackend.MemSt) (data : String) (opts : MemoryBackend.MemOpts)
    (sl : String) (hd : data ≠ "") (hs : opts.salt = some sl)
    (hne : sl ≠ "") :
    (lookupStore st.store (MemoryBackend.memKey pk sl) = none →
      (MemoryBackend.put env pk st data opts).1 =
        .ok (MemoryBackend.memKey pk sl)) ∧
    (∀ old, lookupStore st.store (MemoryBackend.memKey pk sl) = some old →
      ((∃ s, old.seq = some s ∧ opts.seq = some (s + 1)) →
        (MemoryBackend.put env pk st data opts).1 =
          .ok (MemoryBackend.memKey pk sl)) ∧
      ((¬ ∃ s, old.seq = some s ∧ opts.seq = some (s + 1)) →
        (MemoryBackend.put env pk st data opts).1 =
          .err "ERR_CONFLICT_SEQ") ∧
      (∀ s, old.seq = some s →
        (MemoryBackend.put env pk st data
          { opts with seq := some (s + 1) }).1 =
            .ok (MemoryBackend.memKey pk sl))) := by
  constructor
  · intro hl
    rw [mem_put_salted_eval env pk st data opts sl hd hs hne]
    simp only [hl]
  · intro old hl
    refine ⟨?_, ?_, ?_⟩
    · rintro ⟨s, hos, hseq⟩
      rw [mem_put_salted_eval env pk st data opts sl hd hs hne]
      simp only [hl, hos, hseq]
      simp
    · intro hno
      rw [mem_put_salted_eval env pk st data opts sl hd hs hne]
      simp only [hl]
      cases hos : old.seq with
      | none => rfl
      | some rs =>
        cases hseq : opts.seq with
        | none => rfl
        | some s2 =>
          simp only []
          rw [if_neg fun hc => hno ⟨rs, hos, by rw [hseq, hc]⟩]
    · intro s hos
      rw [mem_put_salted_eval env pk st data
        { opts with seq := some (s + 1) } sl hd hs hne]
      simp only [hl, hos]
      simp

/-- Concrete memory-backend environment for witnesses and
counterexamples. -/
def envM : MemoryBackend.MemEnv :=
  { sha := fun s => s, rand := fun n => toString n, sign := fun _ => "g" }

/-- Empty memory-backend state. -/
def mem0 : MemoryBackend.MemSt := { store := [] }

/-- Memory-backend state holding one record with `seq = 1` at the address
of public key `[1]` and salt `"s"`. -/
def mem1 : MemoryBackend.MemSt :=
  { store := [(MemoryBackend.memKey [1] "s",
      { v := "furbie"
        seq := some 1
        salt := some "s"
        k := some (bytesToHex [1])
        sig := some "g" })]
    rnd := 0 }

/-- Witness for C3: at the occupied address, a same-`seq` put conflicts and
the successor-`seq` put succeeds. -/
theorem mem_put_seq_gate_witness :
    (MemoryBackend.put envM [1] mem1 "furbie"
      { seq := some 1, salt := some "s" }).1 = .err "ERR_CONFLICT_SEQ" ∧
    (MemoryBackend.put envM [1] mem1 "furbie-foo"
      { seq := some 2, salt := some "s" }).1 =
        .ok (MemoryBackend.memKey [1] "s") := by
  have hg := mem_put_seq_gate envM [1] mem1 "furbie"
    { seq := some 1, salt := some "s" } "s" (by decide) rfl (by decide)
  have hg2 := mem_put_seq_gate envM [1] mem1 "furbie-foo"
    { seq := some 1, salt := some "s" } "s" (by decide) rfl (by decide)
  have hold : lookupStore mem1.store (MemoryBackend.memKey [1] "s") =
      some { v := "furbie", seq := some 1, salt := some "s",
             k := some (bytesToHex [1]), sig := some "g" } := by decide
  constructor
  · refine (hg.2 _ hold).2.1 ?_
    rintro ⟨s, hs1, hs2⟩
    simp only [Option.some.injEq] at hs1 hs2
    omega
  · exact (hg2.2 _ hold).2.2 1 rfl

/-- Counterexample to C3 as stated: a put of empty data at an empty address
is rejected (with `no data provided`, not a sequence conflict), refuting
"accepted iff no record is stored at that address or seq is the
successor". -/
theorem mem_put_seq_gate_counterexample :
    (MemoryBackend.put envM [1] mem0 ""
      { seq := some 1, salt := some "s" }).1 = .err "no data provided" ∧
    mem0.store = [] := by
  exact ⟨by decide, rfl⟩

/-- C9 (amended) — Memory-backend addressing: an accepted salted put
returns `hex(utf8(hex(publicKey)) ‖ utf8(salt))`: the stored `k` field is
already the hex string of the public key and is hex-encoded again together
with the salt.  (The claimed `hex(publicKey) ‖ hex(salt)` is refuted by
`mem_address_counterexample`.) -/
theorem mem_address_spec (env : MemoryBackend.MemEnv) (pk : List Nat)
    (st : MemoryBackend.MemSt) (data : String) (opts : MemoryBackend.MemOpts)
    (sl : String) (a : String) (hd : data ≠ "") (hs : opts.salt = some sl)
    (hne : sl ≠ "")
    (hok : (MemoryBackend.put env pk st data opts).1 = .ok a) :
    a = bytesToHex (strBytes (bytesToHex pk) ++ strBytes sl) := by
  rw [mem_put_salted_eval env pk st data opts sl hd hs hne] at hok
  simp only [] at hok
  cases hl : lookupStore st.store (MemoryBackend.memKey pk sl) with
  | none =>
    rw [hl] at hok
    simp only [WLResult.ok.injEq] at hok
    exact hok.symm
  | some old =>
    rw [hl] at hok
    simp only [] at hok
    cases hos : old.seq with
    | none =>
      cases hseq : opts.seq <;> rw [hos, hseq] at hok <;> simp at hok
    | some rs =>
      cases hseq : opts.seq with
      | none => rw [hos, hseq] at hok; simp at hok
      | some s2 =>
        rw [hos, hseq] at hok
        simp only [] at hok
        by_cases hc : s2 = rs + 1
        · rw [if_pos hc] at hok
          simp only [WLResult.ok.injEq] at hok
          exact hok.symm
        · rw [if_neg hc] at hok
          simp at hok

/-- Witness for C9's amended addressing at a concrete accepted put. -/
theorem mem_address_spec_witness :
    (MemoryBackend.put envM [171] mem0 "d"
      { seq := some 1, salt := some "x" }).1 = .ok "616278" ∧
    ("616278" : String) =
      bytesToHex (strBytes (bytesToHex [171]) ++ strBytes "x") := by
  constructor
  · decide
  · exact mem_address_spec envM [171] mem0 "d"
      { seq := some 1, salt := some "x" } "x" "616278" (by decide) rfl
      (by decide) (by decide)

/-- Counterexample to C9 as stated: the returned address is not
`hex(publicKey) ‖ hex(salt)` — for public key byte `0xab` and salt `"x"`
the claim predicts `"ab78"` but the code returns `"616278"`. -/
theorem mem_address_counterexample :
    (MemoryBackend.put envM [171] mem0 "d"
      { seq := some 1, salt := some "x" }).1 = .ok "616278" ∧
    bytesToHex [171] ++ bytesToHex (strBytes "x") = "ab78" ∧
    ("616278" : String) ≠ "ab78" := by
  refine ⟨by decide, by decide, by decide⟩

/-- C10 — Failed memory-backend puts are atomic: whenever `put` reports an
error, the store mapping is unchanged (no record added, replaced or
removed). -/
theorem mem_put_error_atomic (env : MemoryBackend.MemEnv) (pk : List Nat)
    (st : MemoryBackend.MemSt) (data : String) (opts : MemoryBackend.MemOpts)
    (e : String)
    (h : (MemoryBackend.put env pk st data opts).1 = .err e) :
    ((MemoryBackend.put env pk st data opts).2).store = st.store := by
  unfold MemoryBackend.put at h ⊢
  by_cases hd : data = ""
  · rw [if_pos hd]
  · rw [if_neg hd] at h ⊢
    have hst : (MemoryBackend.getPayload env pk st data opts).2.store =
        st.store := by
      unfold MemoryBackend.getPayload MemoryBackend.getSha
      by_cases ht : truthyS opts.salt = true
      · rw [if_pos ht]
      · rw [if_neg ht]
    rw [show MemoryBackend.getPayload env pk st data opts =
        ((MemoryBackend.getPayload env pk st data opts).1,
         (MemoryBackend.getPayload env pk st data opts).2) from rfl] at h ⊢
    simp only [] at h ⊢
    cases hl : lookupStore
        ((MemoryBackend.getPayload env pk st data opts).2).store
        (bytesToHex
          (strBytes (((MemoryBackend.getPayload env pk st data opts).1).k.getD "") ++
           strBytes (((MemoryBackend.getPayload env pk st data opts).1).salt.getD ""))) with
    | none =>
      rw [hl] at h
      simp at h
    | some old =>
      rw [hl] at h
      simp only [] at h ⊢
      cases hos : old.seq with
      | none => exact hst
      | some rs =>
        cases hps : ((MemoryBackend.getPayload env pk st data opts).1).seq with
        | none => exact hst
        | some s2 =>
          rw [hos] at h
          try rw [hps] at h
          simp only [] at h ⊢
          by_cases hc : s2 = rs + 1
          · rw [if_pos hc] at h
            simp at h
          · rw [if_neg hc] at h ⊢
            exact hst

/-- Witness for C10 at a concrete conflicting put. -/
theorem mem_put_error_atomic_witness :
    (MemoryBackend.put envM [1] mem1 "furbie"
      { seq := some 1, salt := some "s" }).1 = .err "ERR_CONFLICT_SEQ" ∧
    ((MemoryBackend.put envM [1] mem1 "furbie"
      { seq := some 1, salt := some "s" }).2).store = mem1.store := by
  constructor
  · decide
  · exact mem_put_error_atomic envM [1] mem1 "furbie"
      { seq := some 1, salt := some "s" } "ERR_CONFLICT_SEQ" (by decide)

/-! ### C4 — the `original` field of the reassembler -/

/-- C4 (amended) — Final reassembly stage: when a record's `v` parses as a
pointer buffer, all children fetch successfully and their concatenation no
longer parses, `maybeRetrieveChunked` returns the record with `v` replaced
by the concatenation and `original` set to the `v` of this (last) stage —
which is the root record's own `v` exactly when there is a single
indirection level.  (At greater depths `original` is overwritten at each
level; see `reassembler_original_counterexample`.) -/
theorem reassembly_final_stage (env : Env) (store : Store) (r : WLRecord)
    (ptrs : List String) (recs : List WLRecord) (g : Nat)
    (hp : env.jparse r.v = some ptrs)
    (hf : GrenacheBackend.fetchPointers store ptrs = .ok recs)
    (hnp : env.jparse (GrenacheBackend.concatV recs) = none) :
    GrenacheBackend.maybeRetrieveChunked env store (g + 2) r =
      .ok { r with original := some r.v,
                   v := GrenacheBackend.concatV recs } := by
  simp only [GrenacheBackend.maybeRetrieveChunked, hp, hf, hnp]

/-- Store for the C4 witness: one pointer level over a single leaf. -/
def stW4 : Store := [("B", { v := "x" })]

/-- Root record for the C4 witness. -/
def rW4 : WLRecord := { v := wrapPointers ["B"] }

/-- Witness for C4's amended final-stage property at depth 1: `original`
is the root's own `v`. -/
theorem reassembly_final_stage_witness :
    GrenacheBackend.maybeRetrieveChunked envW stW4 2 rW4 =
      .ok { rW4 with original := some rW4.v,
                     v := GrenacheBackend.concatV [{ v := "x" }] } := by
  exact reassembly_final_stage envW stW4 rW4 ["B"] [{ v := "x" }] 0
    (by decide) (by decide) (by decide)

/-- Two-level pointer chain for the C4 counterexample. -/
def stC4 : Store :=
  [("A", { v := wrapPointers ["B"] }),
   ("B", { v := wrapPointers ["C"] }),
   ("C", { v := "hello" })]

/-- Counterexample to C4 as stated: at indirection depth 2 (within the
default `maxIndirections`), the returned record's `original` equals the
intermediate pointer buffer, not the root record's own `v` — each
reassembly level overwrites `original`. -/
theorem reassembler_original_counterexample :
    lookupStore stC4 "A" = some { v := wrapPointers ["B"] } ∧
    GrenacheBackend.get envW stC4 5 "A" false =
      .ok { v := "hello", original := some (wrapPointers ["C"]) } ∧
    some (wrapPointers ["C"]) ≠ some (wrapPointers ["B"]) := by
  refine ⟨by decide, by decide, by decide⟩

/-! ### C5 — write-path selection and the falsy `seq = 0` -/

/-- Configuration with keys, for the mutable path. -/
def confK5 : Conf := { keys := some "PK" }

/-- C5 — Write-path selection, evaluated at the failing input `seq = 0`:
`send` takes the mutable path for every defined `opts.seq` including `0`
(and the immutable path for undefined `seq`, and fails with `no keys set`
when keys are missing), but for `seq = 0` the record handed to
`putMutable` is *not* populated with `seq` (nor `salt`): `getPayload`'s
`if (!opts.seq)` treats `0` as absent, contradicting `send`'s explicit
`opts.seq !== 0` check.  (`k` and `sig` are attached by the transport, not
by the backend.) -/
theorem send_path_seq_zero_bug :
    GrenacheBackend.getPayload (some "s") "d" (some 0) = { v := "d" } ∧
    GrenacheBackend.send envW confK5 pstW "d" (some 0) =
      .ok (mutAddr "PK" none,
        { store := [(mutAddr "PK" none, { v := "d", k := some "PK" })]
          rnd := 0
          saltOpt := none }) ∧
    GrenacheBackend.send envW confW pstW "d" (some 1) = .err "no keys set" ∧
    GrenacheBackend.send envW confK5 { pstW with saltOpt := some "s" } "d"
        (some 1) =
      .ok (mutAddr "PK" (some "s"),
        { store := [(mutAddr "PK" (some "s"),
            { v := "d", seq := some 1, salt := some "s", k := some "PK" })]
          rnd := 0
          saltOpt := some "s" }) ∧
    GrenacheBackend.send envW confW pstW "d" none =
      .ok (immAddrOf "d",
        { store := [(immAddrOf "d", { v := "d" })]
          rnd := 0
          saltOpt := none }) := by
  refine ⟨rfl, by decide, by decide, by decide, by decide⟩

/-! ### C8 — the dropped error of `storeUntilPointersFit` -/

/-- Environment with a constant digest: every slice receives the same
derived salt, so the second leaf of a mutable multi-level put collides
with the first and the transport reports a sequence conflict. -/
def envZ8 : Env :=
  { sha := fun _ => "Z", rand := fun _ => "", jparse := cjparse }

/-- Fan-out-2 configuration with keys for the C8 scenario. -/
def confC8 : Conf :=
  { bufferSizelimit := 48
    addressSize := 1
    maxIndirections := 2
    keys := some "PK" }

/-- A 144-byte payload: three slices, entering the multi-level path. -/
def dataC8 : String := ⟨List.replicate 144 'c'⟩

/-- C8 — Error propagation, evaluated at the failing input: in the
sequential-boxes path a sub-store fails with a transport error, but `put`
never invokes its callback (`storeUntilPointersFit`'s series callback
reads `if (err) return err` instead of `cb(err)`), modelled as `hang`. -/
theorem multi_store_error_dropped :
    GrenacheBackend.storeBoxes envZ8 confC8 (some 1) pstW
      (prepareMultiLevelData (prepareData dataC8 confC8.bufferSizelimit)
        (getMaxPointersPerBuffer confC8.bufferSizelimit confC8.addressSize)) =
      .err "302 sequence number less than current" ∧
    GrenacheBackend.put envZ8 confC8 3 pstW dataC8 (some 1) =
      .hang := by
  refine ⟨by decide, by decide⟩

/-! ### C6 — salting policy on chunked writes -/

/-- View of a stored record as its `(v, salt)` pair. -/
def leafView (store : Store) (p : String) : Option (String × Option String) :=
  match lookupStore store p with
  | none => none
  | some r => some (r.v, r.salt)

/-- `wrapPointers` is injective (it parses back canonically). -/
theorem wrapPointers_inj {l₁ l₂ : List String}
    (h : wrapPointers l₁ = wrapPointers l₂) : l₁ = l₂ := by
  have h₁ := cjparse_wrap l₁
  rw [h, cjparse_wrap l₂] at h₁
  exact (Option.some.injEq _ _).mp h₁.symm

/-- C6 (amended) — On a single-level chunked write (more than one slice,
fewer than the fan-out) the caller's salt is never used: every leaf
receives a digest of its own fragment, and the root record's salt is
overwritten with a digest of the JSON-stringified pointer buffer (for
`seq = 0` the payload builder drops the salt altogether).  The original
claim, that the caller's salt is used for the root, is refuted by
`chunked_salt_counterexample`. -/
theorem chunked_salts_spec (f : Nat) (env : Env) (conf : Conf) (st : PSt)
    (data : String) (oseq : Option Nat) (a : String) (st₁ : PSt)
    (pointers : List String) (root : WLRecord)
    (hone : (prepareData data conf.bufferSizelimit).length ≠ 1)
    (hlt : (prepareData data conf.bufferSizelimit).length <
      getMaxPointersPerBuffer conf.bufferSizelimit conf.addressSize)
    (hput : GrenacheBackend.put env conf (f + 1) st data oseq = .ok (a, st₁))
    (hroot : lookupStore st₁.store a = some root)
    (hrv : root.v = wrapPointers pointers) :
    root.salt = cellSalt oseq
      (some (env.sha (jsonQuote (wrapPointers pointers) ++
        env.rand (st.rnd + (prepareData data conf.bufferSizelimit).length)))) ∧
    List.Forall₂
      (fun (p : String) (iv : Nat × String) =>
        leafView st₁.store p =
          some (iv.2, cellSalt oseq (some (env.sha (iv.2 ++ env.rand iv.1)))))
      pointers
      (List.enumFrom st.rnd (prepareData data conf.bufferSizelimit)) := by
  rw [GrenacheBackend.put] at hput
  rw [if_neg hone, if_pos hlt] at hput
  split at hput
  case _ pointers' stP hsp =>
    rw [GrenacheBackend.wrapAndStorePointers] at hput
    simp only [GrenacheBackend.getSha] at hput
    obtain ⟨hrnd₁, hsalt₁, hpresS, hane, root', hlr, hrv', hrsalt, hrm⟩ :=
      send_ok_spec env conf _ _ oseq a st₁ hput
    obtain ⟨hrndP, hpresP, hforP⟩ :=
      storeParallel_ok_spec env conf oseq _ st pointers' stP hsp
    have hre : root = root' := by
      have h2 := hroot.symm.trans hlr
      exact Option.some_inj.mp h2
    have hpe : pointers = pointers' := by
      apply wrapPointers_inj
      rw [← hrv, hre, hrv']
    subst hre
    subst hpe
    constructor
    · rw [hrsalt]
      simp only []
      rw [hrndP]
    · refine hforP.imp ?_
      rintro p iv ⟨hne, r, hl, hv, hsalt, hm⟩
      unfold leafView
      rw [hpresS p r hl hm]
      simp only []
      rw [hv, hsalt]
  case _ e => simp at hput
  case _ => simp at hput
  case _ => simp at hput

/-- Environment whose digest keeps the digested content visible, making
leaf and root salts distinct. -/
def envS6 : Env :=
  { sha := fun s => "D" ++ s, rand := fun _ => "", jparse := cjparse }

/-- Fan-out-3 configuration with keys for the C6 scenarios. -/
def confM6 : Conf :=
  { bufferSizelimit := 48
    addressSize := 1
    maxIndirections := 2
    keys := some "PK" }

/-- A 60-byte payload: two slices, single pointer level. -/
def data60 : String := ⟨List.replicate 60 'a'⟩

/-- Put-state whose `opts.salt` cell holds the caller's salt. -/
def stSalt6 : PSt := { store := [], saltOpt := some "mysalt" }

/-- The chunked put of the C6 counterexample. -/
def c6put : WLResult (String × PSt) :=
  GrenacheBackend.put envS6 confM6 2 stSalt6 data60 (some 1)

/-- The salt of the root record stored by `c6put`. -/
def c6rootSalt : Option (Option String) :=
  match c6put with
  | .ok (a, st₁) => (lookupStore st₁.store a).map (fun r => r.salt)
  | _ => none

/-- Counterexample to C6 as stated: on a chunked write the caller's salt
`"mysalt"` is not used for the root record — `wrapAndStorePointers`
overwrites `opts.salt` with a digest of the serialized pointer buffer. -/
theorem chunked_salt_counterexample :
    truthyS stSalt6.saltOpt = true ∧
    c6rootSalt ≠ none ∧
    c6rootSalt ≠ some (some "mysalt") := by
  refine ⟨by decide, by decide, by decide⟩


/-- First slice of the C6 witness payload (48 bytes of `a`). -/
def c6s1 : String := ⟨List.replicate 48 'a'⟩

/-- Second slice of the C6 witness payload (12 bytes of `a`). -/
def c6s2 : String := ⟨List.replicate 12 'a'⟩

/-- Leaf addresses of the C6 witness put. -/
def c6p1 : String := mutAddr "PK" (some ("D" ++ c6s1))

/-- Second leaf address of the C6 witness put. -/
def c6p2 : String := mutAddr "PK" (some ("D" ++ c6s2))

/-- Serialized pointer buffer of the C6 witness put. -/
def c6wrapped : String := wrapPointers [c6p1, c6p2]

/-- Root salt of the C6 witness put: digest of the stringified buffer. -/
def c6rsalt : String := "D" ++ jsonQuote c6wrapped

/-- Root record of the C6 witness put. -/
def c6root : WLRecord :=
  { v := c6wrapped, seq := some 1, salt := some c6rsalt, k := some "PK" }

/-- Root address of the C6 witness put. -/
def c6addr : String := mutAddr "PK" (some c6rsalt)

/-- Final state of the C6 witness put. -/
def c6st : PSt :=
  { store :=
      [(c6addr, c6root),
       (c6p2, { v := c6s2, seq := some 1, salt := some ("D" ++ c6s2),
                k := some "PK" }),
       (c6p1, { v := c6s1, seq := some 1, salt := some ("D" ++ c6s1),
                k := some "PK" })]
    rnd := 3
    saltOpt := some c6rsalt }

/-- Witness for C6's amended salting at the concrete chunked put. -/
theorem chunked_salts_spec_witness :
    GrenacheBackend.put envS6 confM6 2 stSalt6 data60 (some 1) =
      .ok (c6addr, c6st) ∧
    c6root.salt = cellSalt (some 1)
      (some (envS6.sha (jsonQuote (wrapPointers [c6p1, c6p2]) ++
        envS6.rand (stSalt6.rnd +
          (prepareData data60 confM6.bufferSizelimit).length)))) ∧
    List.Forall₂
      (fun (p : String) (iv : Nat × String) =>
        leafView c6st.store p =
          some (iv.2, cellSalt (some 1)
            (some (envS6.sha (iv.2 ++ envS6.rand iv.1)))))
      [c6p1, c6p2]
      (List.enumFrom stSalt6.rnd
        (prepareData data60 confM6.bufferSizelimit)) := by
  have hp : GrenacheBackend.put envS6 confM6 2 stSalt6 data60 (some 1) =
      .ok (c6addr, c6st) := by decide
  have h := chunked_salts_spec 1 envS6 confM6 stSalt6 data60 (some 1)
    c6addr c6st [c6p1, c6p2] c6root (by decide) (by decide) hp (by decide)
    (by decide)
  exact ⟨hp, h.1, h.2⟩

/-! ### C7 — immutable idempotence -/

/-- The address of an immutable (`seq`-less) `put` as a pure function of
the configuration and the payload: a single fragment is content-addressed
directly, a pointer level is content-addressed through its serialized
pointer buffer, and the multi-level path recurses exactly as `put` does.
The function is well defined because the transport ignores the salt for
immutable writes (spec §4.3/§4.5), so neither the randomness supply nor
the `opts.salt` cell influences any address. -/
def immutablePutAddr (conf : Conf) : Nat → String → Option String
  | 0, _ => none
  | f + 1, data =>
    if (prepareData data conf.bufferSizelimit).length = 1 then
      some (immAddrOf data)
    else if (prepareData data conf.bufferSizelimit).length <
        getMaxPointersPerBuffer conf.bufferSizelimit conf.addressSize then
      some (immAddrOf (wrapPointers
        ((prepareData data conf.bufferSizelimit).map immAddrOf)))
    else if (prepareData data conf.bufferSizelimit).length >
        getSliceLimit conf.bufferSizelimit
          (getMaxPointersPerBuffer conf.bufferSizelimit conf.addressSize)
          conf.maxIndirections then
      none
    else
      immutablePutAddr conf f
        (wrapPointers
          (((prepareMultiLevelData (prepareData data conf.bufferSizelimit)
            (getMaxPointersPerBuffer conf.bufferSizelimit
              conf.addressSize)).map (List.map immAddrOf)).flatten))

/-- A successful immutable `send` returns the content address of the sent
data, whatever the `opts.salt` cell holds. -/
theorem send_imm_addr (env : Env) (conf : Conf) (st : PSt) (data a : String)
    (st₁ : PSt)
    (h : GrenacheBackend.send env conf st data none = .ok (a, st₁)) :
    a = immAddrOf data := by
  unfold GrenacheBackend.send GrenacheBackend.sendImmutable tPutImm
    GrenacheBackend.getPayload at h
  simp only [] at h
  by_cases ht : truthyS st.saltOpt = true
  · rw [if_pos ht] at h
    simp only [WLResult.ok.injEq, Prod.mk.injEq] at h
    exact h.1.symm
  · rw [if_neg ht] at h
    simp only [WLResult.ok.injEq, Prod.mk.injEq] at h
    exact h.1.symm

/-- On the immutable path `storeParallel` returns exactly the content
addresses of its slices, in order. -/
theorem storeParallel_imm_addrs (env : Env) (conf : Conf) :
    ∀ (slices : List String) (st : PSt) (ptrs : List String) (st₁ : PSt),
      GrenacheBackend.storeParallel env conf none st slices =
        .ok (ptrs, st₁) →
      ptrs = slices.map immAddrOf := by
  intro slices
  induction slices with
  | nil =>
    intro st ptrs st₁ h
    simp only [GrenacheBackend.storeParallel, WLResult.ok.injEq,
      Prod.mk.injEq] at h
    rw [← h.1]
    rfl
  | cons chunk rest ih =>
    intro st ptrs st₁ h
    simp only [GrenacheBackend.storeParallel, GrenacheBackend.getSha] at h
    split at h
    case _ a st₃ hsend =>
      split at h
      case _ as st₄ hrest =>
        simp only [WLResult.ok.injEq, Prod.mk.injEq] at h
        rw [← h.1, List.map_cons,
          send_imm_addr _ _ _ _ _ _ hsend, ih _ as _ hrest]
      case _ e => simp at h
      case _ => simp at h
      case _ => simp at h
    case _ e => simp at h
    case _ => simp at h
    case _ => simp at h

/-- On the immutable path `storeBoxes` returns the content addresses of
its boxes, box by box. -/
theorem storeBoxes_imm_addrs (env : Env) (conf : Conf) :
    ∀ (boxes : List (List String)) (st : PSt) (res : List (List String))
      (st₁ : PSt),
      GrenacheBackend.storeBoxes env conf none st boxes = .ok (res, st₁) →
      res = boxes.map (List.map immAddrOf) := by
  intro boxes
  induction boxes with
  | nil =>
    intro st res st₁ h
    simp only [GrenacheBackend.storeBoxes, WLResult.ok.injEq,
      Prod.mk.injEq] at h
    rw [← h.1]
    rfl
  | cons box rest ih =>
    intro st res st₁ h
    simp only [GrenacheBackend.storeBoxes] at h
    split at h
    case _ ptrs stP hsp =>
      split at h
      case _ pss st₄ hrest =>
        simp only [WLResult.ok.injEq, Prod.mk.injEq] at h
        rw [← h.1, List.map_cons,
          storeParallel_imm_addrs env conf box st ptrs stP hsp,
          ih _ pss _ hrest]
      case _ e => simp at h
      case _ => simp at h
      case _ => simp at h
    case _ e => simp at h
    case _ => simp at h
    case _ => simp at h

/-- The address returned by a successful immutable `put` is the pure
function `immutablePutAddr` of the configuration and the payload: no
state, randomness or salt enters it. -/
theorem put_imm_addr :
    ∀ (f : Nat) (env : Env) (conf : Conf) (st : PSt) (data a : String)
      (st₁ : PSt),
      GrenacheBackend.put env conf f st data none = .ok (a, st₁) →
      immutablePutAddr conf f data = some a := by
  intro f
  induction f with
  | zero =>
    intro env conf st data a st₁ hput
    exact absurd hput (by simp [GrenacheBackend.put])
  | succ f ih =>
    intro env conf st data a st₁ hput
    rw [GrenacheBackend.put] at hput
    rw [immutablePutAddr]
    by_cases hone : (prepareData data conf.bufferSizelimit).length = 1
    · rw [if_pos hone] at hput ⊢
      have hhead : (prepareData data conf.bufferSizelimit).headD "" = data := by
        obtain ⟨x, hx⟩ := List.length_eq_one.mp hone
        rw [hx]
        exact prepareData_single data conf.bufferSizelimit x hx
      rw [hhead] at hput
      rw [send_imm_addr _ _ _ _ _ _ hput]
    · rw [if_neg hone] at hput ⊢
      by_cases hlt : (prepareData data conf.bufferSizelimit).length <
          getMaxPointersPerBuffer conf.bufferSizelimit conf.addressSize
      · rw [if_pos hlt] at hput ⊢
        split at hput
        case _ pointers stP hsp =>
          rw [GrenacheBackend.wrapAndStorePointers] at hput
          simp only [GrenacheBackend.getSha] at hput
          rw [send_imm_addr _ _ _ _ _ _ hput,
            storeParallel_imm_addrs env conf _ st pointers stP hsp]
        case _ e => simp at hput
        case _ => simp at hput
        case _ => simp at hput
      · rw [if_neg hlt] at hput ⊢
        by_cases hbig : getSliceLimit conf.bufferSizelimit
            (getMaxPointersPerBuffer conf.bufferSizelimit conf.addressSize)
            conf.maxIndirections <
            (prepareData data conf.bufferSizelimit).length
        · rw [if_pos hbig] at hput
          exact absurd hput (by simp)
        · rw [if_neg hbig] at hput ⊢
          have hput₂ :
              (match GrenacheBackend.storeBoxes env conf none st
                  (prepareMultiLevelData
                    (prepareData data conf.bufferSizelimit)
                    (getMaxPointersPerBuffer conf.bufferSizelimit
                      conf.addressSize)) with
                | WLResult.ok (res, st₃) =>
                  GrenacheBackend.put env conf f st₃
                    (wrapPointers res.flatten) none
                | WLResult.err _ => WLResult.hang
                | WLResult.hang => WLResult.hang
                | WLResult.fuelOut => WLResult.fuelOut) =
                WLResult.ok (a, st₁) := hput
          clear hput
          split at hput₂
          case _ res stB hsb =>
            rw [storeBoxes_imm_addrs env conf _ st res stB hsb] at hput₂
            exact ih env conf stB _ a st₁ hput₂
          case _ e => simp at hput₂
          case _ => simp at hput₂
          case _ => simp at hput₂

/-- `immutablePutAddr` does not depend on the fuel: any two successful
evaluations agree. -/
theorem immutablePutAddr_agree (conf : Conf) :
    ∀ (f g : Nat) (data a b : String),
      immutablePutAddr conf f data = some a →
      immutablePutAddr conf g data = some b → a = b := by
  intro f
  induction f with
  | zero =>
    intro g data a b ha _
    exact absurd ha (by simp [immutablePutAddr])
  | succ f ih =>
    intro g data a b ha hb
    cases g with
    | zero => exact absurd hb (by simp [immutablePutAddr])
    | succ g =>
      rw [immutablePutAddr] at ha hb
      by_cases hone : (prepareData data conf.bufferSizelimit).length = 1
      · rw [if_pos hone] at ha hb
        simp only [Option.some.injEq] at ha hb
        rw [← ha, ← hb]
      · rw [if_neg hone] at ha hb
        by_cases hlt : (prepareData data conf.bufferSizelimit).length <
            getMaxPointersPerBuffer conf.bufferSizelimit conf.addressSize
        · rw [if_pos hlt] at ha hb
          simp only [Option.some.injEq] at ha hb
          rw [← ha, ← hb]
        · rw [if_neg hlt] at ha hb
          by_cases hbig : getSliceLimit conf.bufferSizelimit
              (getMaxPointersPerBuffer conf.bufferSizelimit
                conf.addressSize)
              conf.maxIndirections <
              (prepareData data conf.bufferSizelimit).length
          · rw [if_pos hbig] at ha
            exact absurd ha (by simp)
          · rw [if_neg hbig] at ha hb
            exact ih g _ a b ha hb

/-- A single-fragment immutable `put` returns the content address of the
payload itself. -/
theorem immutablePutAddr_single (conf : Conf) (f : Nat) (P a : String)
    (hP : (prepareData P conf.bufferSizelimit).length = 1)
    (h : immutablePutAddr conf f P = some a) : a = immAddrOf P := by
  cases f with
  | zero => exact absurd h (by simp [immutablePutAddr])
  | succ f =>
    rw [immutablePutAddr, if_pos hP] at h
    simp only [Option.some.injEq] at h
    rw [← h]

/-- C7 — Immutable idempotence: with `seq` undefined (immutable mode) the
transport address is a pure function of the stored content (spec
§4.3/§4.5: the salt — including the randomized auto-derived one — is
ignored by the transport for immutable writes), so two `put` calls of the
same payload under one configuration return the same address, from any
states, fuel and randomness supplies, fresh options objects included; and
puts of different single-fragment payloads return different addresses
(content addresses are injective; a payload that itself collides with a
serialized pointer buffer is the §8.7 hazard treated under the round-trip
claim). -/
theorem immutable_put_idempotent (f₁ f₂ f₃ : Nat)
    (env₁ env₂ env₃ : Env) (conf : Conf) (st₁ st₂ st₃ : PSt)
    (P Q a₁ a₂ a₃ : String) (st₄ st₅ st₆ : PSt)
    (hput1 : GrenacheBackend.put env₁ conf f₁ st₁ P none = .ok (a₁, st₄))
    (hput2 : GrenacheBackend.put env₂ conf f₂ st₂ P none = .ok (a₂, st₅))
    (hput3 : GrenacheBackend.put env₃ conf f₃ st₃ Q none = .ok (a₃, st₆)) :
    a₁ = a₂ ∧
    ((prepareData P conf.bufferSizelimit).length = 1 →
      (prepareData Q conf.bufferSizelimit).length = 1 → Q ≠ P →
      a₃ ≠ a₁) := by
  have h₁ := put_imm_addr f₁ env₁ conf st₁ P a₁ st₄ hput1
  have h₂ := put_imm_addr f₂ env₂ conf st₂ P a₂ st₅ hput2
  have h₃ := put_imm_addr f₃ env₃ conf st₃ Q a₃ st₆ hput3
  refine ⟨immutablePutAddr_agree conf f₁ f₂ P a₁ a₂ h₁ h₂, ?_⟩
  intro hP hQ hQP
  rw [immutablePutAddr_single conf f₃ Q a₃ hQ h₃,
    immutablePutAddr_single conf f₁ P a₁ hP h₁]
  intro hc
  exact hQP (immAddrOf_inj _ _ hc)

/-- Environment with an identity digest and distinct randomness draws, so
each C7 witness put derives a different auto-salt. -/
def envR7 : Env :=
  { sha := fun s => s, rand := fun n => toString n, jparse := cjparse }

/-- State after the first C7 witness put (auto salt from the first
randomness draw; the transport keeps only the content). -/
def st7a : PSt :=
  { store := [("mxxxxxx:furbie", { v := "furbie" })]
    rnd := 1
    saltOpt := some "furbie0" }

/-- State after the second C7 witness put (fresh options object, new
auto salt, same content address). -/
def st7b : PSt :=
  { store := [("mxxxxxx:furbie", { v := "furbie" }),
              ("mxxxxxx:furbie", { v := "furbie" })]
    rnd := 2
    saltOpt := some "furbie1" }

/-- State after the third C7 witness put (different payload, different
content address). -/
def st7c : PSt :=
  { store := [("mxxx:foo", { v := "foo" }),
              ("mxxxxxx:furbie", { v := "furbie" }),
              ("mxxxxxx:furbie", { v := "furbie" })]
    rnd := 3
    saltOpt := some "foo2" }

/-- Witness for C7 at concrete puts: two immutable puts of `"furbie"` with
fresh options objects (the `opts.salt` cell reset before each call, so the
auto-derived salts differ) return the same address, and a put of `"foo"`
returns a different one — the scenario of spec acceptance S6. -/
theorem immutable_put_idempotent_witness :
    GrenacheBackend.put envR7 confW 1 pstW "furbie" none =
      .ok ("mxxxxxx:furbie", st7a) ∧
    GrenacheBackend.put envR7 confW 1 { st7a with saltOpt := none } "furbie"
        none =
      .ok ("mxxxxxx:furbie", st7b) ∧
    GrenacheBackend.put envR7 confW 1 { st7b with saltOpt := none } "foo"
        none =
      .ok ("mxxx:foo", st7c) ∧
    (("mxxxxxx:furbie" : String) = "mxxxxxx:furbie" ∧
     ("mxxx:foo" : String) ≠ "mxxxxxx:furbie") := by
  have h1 : GrenacheBackend.put envR7 confW 1 pstW "furbie" none =
      .ok ("mxxxxxx:furbie", st7a) := by decide
  have h2 : GrenacheBackend.put envR7 confW 1 { st7a with saltOpt := none }
      "furbie" none = .ok ("mxxxxxx:furbie", st7b) := by decide
  have h3 : GrenacheBackend.put envR7 confW 1 { st7b with saltOpt := none }
      "foo" none = .ok ("mxxx:foo", st7c) := by decide
  have h := immutable_put_idempotent 1 1 1 envR7 envR7 envR7 confW pstW
    { st7a with saltOpt := none } { st7b with saltOpt := none } "furbie"
    "foo" "mxxxxxx:furbie" "mxxxxxx:furbie" "mxxx:foo" st7a st7b st7c
    h1 h2 h3
  exact ⟨h1, h2, h3, h.1, h.2 (by decide) (by decide) (by decide)⟩

end Wasteland
